import Mathlib

/-!
# Password-quality dictionary module (`src/lib/kadm5/srv/pwqual_dict.c`)

A shallow embedding of `word_compare`, `init_dict`, `dict_open` and `dict_check`.

Conventions of the embedding.

* A byte is a natural number; memory is a list of bytes.
* A `char *` that is only read is the list of bytes from the pointer onward; the
  string it denotes ends at the first NUL byte (or at the end of the list).
* Pointers into `word_block` are offsets into the block.
* Sizes and counts (`size_t`, `off_t`, `unsigned int word_count`) are natural numbers:
  the dictionary is taken to have fewer lines than `UINT_MAX`.
* The C library calls whose outcome depends on the environment (`malloc`, `open`,
  `fstat`, `read`) take their outcome from a `World` record.
-/

namespace PwqualDict

/-! ## Constants from headers outside this file -/

/-- Error numbers of `errno.h` and the `KADM5_PASS_Q_DICT` code of the kadm5 error
table.  Their values are taken as parameters; POSIX makes error numbers positive, and
error-table codes are nonzero. -/
structure Consts where
  ENOENT : Int
  ENOMEM : Int
  EINVAL : Int
  KADM5_PASS_Q_DICT : Int
  ENOENT_pos : 0 < ENOENT
  ENOMEM_pos : 0 < ENOMEM
  EINVAL_pos : 0 < EINVAL
  PASS_Q_DICT_ne : KADM5_PASS_Q_DICT ≠ 0

/-- The success code: `KADM5_OK` is 0 in `kadm5/admin.h`. -/
def KADM5_OK : Int := 0

/-- The Linux values of the error numbers, with the kadm5 table code. -/
def linuxConsts : Consts where
  ENOENT := 2
  ENOMEM := 12
  EINVAL := 22
  KADM5_PASS_Q_DICT := 43787544
  ENOENT_pos := by decide
  ENOMEM_pos := by decide
  EINVAL_pos := by decide
  PASS_Q_DICT_ne := by decide

/-! ## C library string functions -/

/-- C-locale `tolower` on a byte: `A`..`Z` (65..90) go to `a`..`z`. -/
def tolower (c : Nat) : Nat := if 65 ≤ c ∧ c ≤ 90 then c + 32 else c

/-- C-locale `strcasecmp`: walk both strings, comparing lower-cased bytes, until the
first string ends or the bytes differ; return the difference of the last pair.
The end of the list reads as the NUL terminator. -/
def strcasecmp : List Nat → List Nat → Int
  | [], s2 => (tolower 0 : Int) - (tolower (s2.headD 0) : Int)
  | a :: s1, s2 =>
    if tolower a = 0 then (tolower a : Int) - (tolower (s2.headD 0) : Int)
    else if tolower a = tolower (s2.headD 0) then strcasecmp s1 s2.tail
    else (tolower a : Int) - (tolower (s2.headD 0) : Int)

/-- The call `strlen(s)`: number of bytes before the first NUL. -/
def strlen (s : List Nat) : Nat := (s.takeWhile (fun c => c != 0)).length

/-- The call `memchr(mem + p, c, len)`: offset of the first byte equal to `c` among the `len`
bytes starting at offset `p`, or `none` (NULL). -/
def memchr (mem : List Nat) (c : Nat) : Nat → Nat → Option Nat
  | _, 0 => none
  | p, len + 1 => if mem.getD p 0 = c then some p else memchr mem c (p + 1) len

/-! ## `bsearch` and `qsort` -/

/-- The loop of `bsearch`: `cmp idx` is `compar(key, &base[idx])`.  `fuel` bounds the
number of iterations. -/
def bsearchLoop (cmp : Nat → Int) : Nat → Nat → Nat → Option Nat
  | 0, _, _ => none
  | fuel + 1, l, u =>
    if l < u then
      let idx := (l + u) / 2
      if cmp idx < 0 then bsearchLoop cmp fuel l idx
      else if cmp idx > 0 then bsearchLoop cmp fuel (idx + 1) u
      else some idx
    else none

/-- The call `bsearch(key, base, nmemb, size, compar)`: index of a matching element, or `none`
(NULL).  The interval halves at every step, so `nmemb` iterations are enough. -/
def bsearch {α β : Type} (key : α) (base : List β) (dflt : β) (nmemb : Nat)
    (compar : α → β → Int) : Option Nat :=
  bsearchLoop (fun idx => compar key (base.getD idx dflt)) nmemb 0 nmemb

/-- Insertion of one element into a list ordered by `compar`. -/
def sortInsert {β : Type} (compar : β → β → Int) (a : β) : List β → List β
  | [] => [a]
  | b :: l => if compar a b ≤ 0 then a :: b :: l else b :: sortInsert compar a l

/-- Sorting by `compar` (insertion sort). -/
def sortBy {β : Type} (compar : β → β → Int) : List β → List β
  | [] => []
  | a :: l => sortInsert compar a (sortBy compar l)

/-- The call `qsort(base, nmemb, size, compar)`: the first `nmemb` elements are put in
non-decreasing order under `compar`.  The C standard fixes no algorithm; an insertion
sort stands for it, and the search lemma `bsearch_isSome_iff` asks only for a list that
is sorted under the comparator. -/
def qsort {β : Type} (base : List β) (nmemb : Nat) (compar : β → β → Int) : List β :=
  sortBy compar (base.take nmemb) ++ base.drop nmemb

/-! ## The module -/

/-- The record `struct dict_moddata_st`; `none` is a NULL pointer. -/
structure dict_moddata where
  word_list : Option (List Nat)
  word_block : Option (List Nat)
  word_count : Nat
deriving DecidableEq

/-- The comparator `word_compare`: `strcasecmp` of the two words pointed to. -/
def word_compare (s1 s2 : List Nat) : Int := strcasecmp s1 s2

/-- Result of the `read` call. -/
inductive ReadResult where
  /-- The call returned -1 and set `errno`. -/
  | fail (errno : Int)
  /-- The call returned `data.length` after storing `data`; `errno` is untouched. -/
  | got (data : List Nat)
deriving DecidableEq

/-- Outcomes of the environment calls of `dict_open` and `init_dict`. -/
structure World where
  /-- Whether `malloc(sizeof(*dict))` returns non-NULL. -/
  malloc_dict : Bool
  /-- With `some e`, `open` returns -1 with `errno = e`. -/
  open_errno : Option Int
  /-- With `some e`, `fstat` returns -1 and `errno` is `e` when `init_dict` returns. -/
  fstat_errno : Option Int
  /-- The size `sb.st_size` that `fstat` reports. -/
  st_size : Nat
  /-- Whether `malloc(sb.st_size + 1)` returns non-NULL. -/
  malloc_block : Bool
  /-- The value of `errno` when `read` is called. -/
  errno : Int
  read : ReadResult
  /-- Whether `malloc(word_count * sizeof(char *))` returns non-NULL. -/
  malloc_list : Bool
deriving DecidableEq

/-- First loop of `init_dict`: replace each line-feed found by `memchr` with NUL and
count it.  Returns the block and the count.  `len` decreases at every iteration, so
`fuel = len` is enough. -/
def splitLoop : Nat → List Nat → Nat → Nat → Nat → List Nat × Nat
  | 0, mem, _, _, count => (mem, count)
  | fuel + 1, mem, p, len, count =>
    if len > 0 then
      match memchr mem 10 p len with
      | some t => splitLoop fuel (mem.set t 0) (t + 1) (len - (t - p + 1)) (count + 1)
      | none => (mem, count)
    else (mem, count)

/-- Second loop of `init_dict`: `word_list[i] = p; p += strlen(p) + 1`. -/
def indexLoop (mem : List Nat) : Nat → Nat → List Nat
  | 0, _ => []
  | n + 1, p => p :: indexLoop mem n (p + strlen (mem.drop p) + 1)

/-- The function `init_dict(dict, dict_file)`: the return code and the updated record. -/
def init_dict (k : Consts) (w : World) (dict : dict_moddata) (dict_file : Option (List Nat)) :
    Int × dict_moddata :=
  match dict_file with
  | none => (KADM5_OK, dict)
  | some _ =>
    match w.open_errno with
    | some e => if e = k.ENOENT then (KADM5_OK, dict) else (e, dict)
    | none =>
      match w.fstat_errno with
      | some e => (e, dict)
      | none =>
        if !w.malloc_block then (k.ENOMEM, dict)
        else
          match w.read with
          | ReadResult.fail e => (e, { dict with word_block := some [] })
          | ReadResult.got data =>
            if data.length ≠ w.st_size then (w.errno, { dict with word_block := some data })
            else
              let r := splitLoop w.st_size (data ++ [0]) 0 w.st_size dict.word_count
              let dict1 : dict_moddata :=
                { dict with word_block := some r.1, word_count := r.2 }
              if !w.malloc_list then (k.ENOMEM, dict1)
              else
                let wl := indexLoop r.1 dict1.word_count 0
                let sorted := qsort wl dict1.word_count
                  (fun p q => word_compare (r.1.drop p) (r.1.drop q))
                (KADM5_OK, { dict1 with word_list := some sorted })

/-- The function `dict_open(context, dict_file, data)`: the return code and `*data`. -/
def dict_open (k : Consts) (w : World) (dict_file : Option (List Nat)) :
    Int × Option dict_moddata :=
  if !w.malloc_dict then (k.ENOMEM, none)
  else
    let dict : dict_moddata := { word_list := none, word_block := none, word_count := 0 }
    let r := init_dict k w dict dict_file
    if r.1 ≠ 0 then (r.1, none) else (0, some r.2)

/-- A principal: the realm and the name components, as C strings. -/
structure Principal where
  realm : List Nat
  components : List (List Nat)
deriving DecidableEq

/-- The dictionary test of `dict_check`:
`dict->word_list != NULL && bsearch(&password, ...) != NULL`. -/
def dict_lookup (dict : dict_moddata) (password : List Nat) : Bool :=
  match dict.word_list with
  | none => false
  | some wl =>
    (bsearch password wl 0 dict.word_count
      (fun key p => word_compare key ((dict.word_block.getD []).drop p))).isSome

/-- The component loop of `dict_check`, over components `i, i+1, ..`. -/
def componentLoop (k : Consts) (password : List Nat) : List (List Nat) → Int
  | [] => 0
  | cp :: rest =>
    if strcasecmp cp password = 0 then k.KADM5_PASS_Q_DICT
    else componentLoop k password rest

/-- The function `dict_check(context, data, password, policy, princ)`; `policy` is `false` for a
NULL policy. -/
def dict_check (k : Consts) (dict : dict_moddata) (password : List Nat) (policy : Bool)
    (princ : Principal) : Int :=
  if !policy then 0
  else if dict_lookup dict password then k.KADM5_PASS_Q_DICT
  else if strcasecmp princ.realm password = 0 then k.KADM5_PASS_Q_DICT
  else componentLoop k password princ.components

/-! ## Concrete inputs -/

/-- The bytes of a string literal. -/
def bytes (s : String) : List Nat := s.toList.map Char.toNat

/-- A world in which every call succeeds and the file holds `content`. -/
def fileWorld (content : List Nat) : World where
  malloc_dict := true
  open_errno := none
  fstat_errno := none
  st_size := content.length
  malloc_block := true
  errno := 0
  read := ReadResult.got content
  malloc_list := true

/-! ## Vocabulary of the statements -/

/-- The string a `char *` denotes: the bytes before the first NUL. -/
def cstr (s : List Nat) : List Nat := s.takeWhile (fun c => c != 0)

/-- ASCII case folding of a string: `A`..`Z` to `a`..`z`, byte by byte. -/
def fold (s : List Nat) : List Nat := s.map tolower

/-- The file made of the given lines, each followed by one line-feed. -/
def fileOf : List (List Nat) → List Nat
  | [] => []
  | w :: W => w ++ 10 :: fileOf W

/-- The line-feed-terminated lines of a file content, in order, without their
line-feed; what follows the last line-feed is not a line. -/
def lfLines : List Nat → List (List Nat)
  | [] => []
  | c :: s =>
    if c = 10 then [] :: lfLines s
    else
      match lfLines s with
      | [] => []
      | w :: W => (c :: w) :: W

/-- The word block after the split: the given words, each followed by one NUL. -/
def blockOf : List (List Nat) → List Nat
  | [] => []
  | w :: W => w ++ 0 :: blockOf W

/-- The file opens, and `fstat` and `read` deliver the whole of `content`. -/
def World.holds (w : World) (content : List Nat) : Prop :=
  w.open_errno = none ∧ w.fstat_errno = none ∧ w.st_size = content.length ∧
    w.read = ReadResult.got content

instance (w : World) (content : List Nat) : Decidable (w.holds content) := by
  unfold World.holds; infer_instance

/-- The record `init_dict` builds from the lines `W` followed by an unterminated
`tail`: the block holds the words NUL-terminated, the index is sorted. -/
def loaded (W : List (List Nat)) (tail : List Nat) : dict_moddata :=
  let mem := blockOf W ++ tail ++ [0]
  { word_list := some (sortBy (fun p q => word_compare (mem.drop p) (mem.drop q))
      (indexLoop mem W.length 0))
    word_block := some mem
    word_count := W.length }

/-- What follows the last line-feed of a file content (the whole content when it has
no line-feed). -/
def tailSeg : List Nat → List Nat
  | [] => []
  | c :: s => if c = 10 then tailSeg s else if 10 ∈ s then tailSeg s else c :: s

/-! ## Allocation state, for `destroy_dict` and `dict_close` -/

/-- The record `struct dict_moddata_st` as it sits in the heap: its two pointers are
addresses of allocated blocks, or `none` for NULL. -/
structure DictRec where
  word_list : Option Nat
  word_block : Option Nat
  word_count : Nat
deriving DecidableEq

/-- The allocation state: the addresses of the live `malloc` blocks, and the matcher
records stored in live blocks. -/
structure Heap where
  live : List Nat
  recs : List (Nat × DictRec)
deriving DecidableEq

/-- The call `free(p)`: nothing for NULL, release of a live block; freeing an address
that is not live is undefined (`none`). -/
def free (h : Heap) : Option Nat → Option Heap
  | none => some h
  | some a =>
    if a ∈ h.live then
      some { live := h.live.erase a, recs := h.recs.filter (fun r => r.1 != a) }
    else none

/-- The function `destroy_dict(dict)`: return at once for NULL; otherwise read the two
pointers of the record and free them, then the record.  Reading the record through an
address that is not live is undefined (`none`). -/
def destroy_dict (h : Heap) : Option Nat → Option Heap
  | none => some h
  | some a =>
    match (if a ∈ h.live then h.recs.lookup a else none) with
    | none => none
    | some r =>
      (free h r.word_list).bind fun h1 =>
        (free h1 r.word_block).bind fun h2 => free h2 (some a)

/-- The function `dict_close(context, data)`. -/
def dict_close (h : Heap) (data : Option Nat) : Option Heap := destroy_dict h data

/-! ## Sequences of checks -/

/-- One call of `dict_check`: the password, whether a policy is attached, and the
principal. -/
structure CheckReq where
  password : List Nat
  policy : Bool
  princ : Principal

/-- The matcher record threaded through a sequence of `dict_check` calls, with the
codes returned.  The body of `dict_check` has no store through `dict`, so each call
hands the record on as it got it. -/
def run_checks (k : Consts) (d : dict_moddata) : List CheckReq → dict_moddata × List Int
  | [] => (d, [])
  | r :: rs =>
    let code := dict_check k d r.password r.policy r.princ
    let out := run_checks k d rs
    (out.1, code :: out.2)

/-! ## The plugin vtable -/

/-- What a method slot of the vtable can hold: NULL, one of the three methods of this
module, or some other function. -/
inductive PwqualFn where
  | null
  | fn_dict_open
  | fn_dict_check
  | fn_dict_close
  | other (id : Nat)
deriving DecidableEq

/-- The record `struct krb5_pwqual_vtable_st` of `krb5/pwqual_plugin.h`: the module name
and the `open`, `check` and `close` methods (`open` is written `open_fn`, the word being
reserved). -/
structure krb5_pwqual_vtable where
  name : Option (List Nat)
  open_fn : PwqualFn
  check : PwqualFn
  close : PwqualFn
deriving DecidableEq

/-- The function `pwqual_dict_initvt(context, maj_ver, min_ver, vtable)`: the return
code and the vtable afterwards. -/
def pwqual_dict_initvt (k : Consts) (maj_ver min_ver : Int) (vtable : krb5_pwqual_vtable) :
    Int × krb5_pwqual_vtable :=
  if maj_ver ≠ 1 then (k.EINVAL, vtable)
  else
    let vt := vtable
    let vt := { vt with open_fn := PwqualFn.fn_dict_open }
    let vt := { vt with check := PwqualFn.fn_dict_check }
    let vt := { vt with close := PwqualFn.fn_dict_close }
    (0, vt)

/-! ## Lemmas on the string functions, the search and the sort -/

theorem tolower_zero : tolower 0 = 0 := by decide

theorem tolower_eq_zero (c : Nat) : tolower c = 0 ↔ c = 0 := by
  unfold tolower; split <;> omega

theorem strcasecmp_nil_left (b : List Nat) :
    strcasecmp [] b = - (tolower (b.headD 0) : Int) := by
  simp [strcasecmp, tolower_zero]

theorem strcasecmp_antisymm (a b : List Nat) : strcasecmp b a = - strcasecmp a b := by
  induction a generalizing b with
  | nil =>
    cases b with
    | nil => simp [strcasecmp, tolower_zero]
    | cons y b => 
      simp only [strcasecmp, List.headD_nil, List.headD_cons, tolower_zero, List.tail_nil]
      split_ifs <;> omega
  | cons x a ih =>
    cases b with
    | nil => 
      simp only [strcasecmp, List.headD_nil, List.headD_cons, tolower_zero, List.tail_nil]
      split_ifs <;> omega
    | cons y b =>
      simp only [strcasecmp, List.headD_cons, List.tail_cons]
      split_ifs <;> first | omega | exact ih b

theorem strcasecmp_trans (a b c : List Nat) (h1 : strcasecmp a b ≤ 0)
    (h2 : strcasecmp b c ≤ 0) : strcasecmp a c ≤ 0 := by
  induction a generalizing b c with
  | nil => rw [strcasecmp_nil_left]; omega
  | cons x a ih =>
    cases b with
    | nil =>
      simp only [strcasecmp, List.headD_nil, List.headD_cons, tolower_zero, List.tail_nil] at h1 h2 ⊢
      split_ifs at h1 h2 ⊢ <;> omega
    | cons y b =>
      cases c with
      | nil =>
        simp only [strcasecmp, List.headD_nil, List.headD_cons, tolower_zero, List.tail_nil] at h1 h2 ⊢
        split_ifs at h1 h2 ⊢ <;> omega
      | cons z c =>
        simp only [strcasecmp, List.headD_cons, List.tail_cons] at h1 h2 ⊢
        split_ifs at h1 h2 ⊢ <;> first | omega | exact ih _ _ h1 h2

theorem cstr_nil : cstr [] = [] := rfl

theorem cstr_cons (x : Nat) (a : List Nat) :
    cstr (x :: a) = if x = 0 then [] else x :: cstr a := by
  by_cases h : x = 0 <;> simp [cstr, List.takeWhile_cons, h]

theorem strcasecmp_eq_zero_iff (a b : List Nat) :
    strcasecmp a b = 0 ↔ fold (cstr a) = fold (cstr b) := by
  induction a generalizing b with
  | nil =>
    cases b with
    | nil => simp [strcasecmp, cstr_nil, fold]
    | cons y b =>
      have hy := tolower_eq_zero y
      simp only [strcasecmp, List.headD_cons, tolower_zero, cstr_nil, cstr_cons, fold, List.map_nil]
      split_ifs with h0
      · subst h0; simp [tolower_zero]
      · simp; omega
  | cons x a ih =>
    have hx := tolower_eq_zero x
    cases b with
    | nil =>
      simp only [strcasecmp, List.headD_nil, tolower_zero, cstr_nil, cstr_cons, fold, List.map_nil]
      split_ifs <;> simp <;> omega
    | cons y b =>
      have hy := tolower_eq_zero y
      simp only [strcasecmp, List.headD_cons, List.tail_cons, cstr_cons, fold]
      split_ifs <;> simp_all [fold]
      omega

theorem strcasecmp_congr_right (x p q : List Nat) (h : fold p = fold q) :
    strcasecmp x p = strcasecmp x q := by
  induction x generalizing p q with
  | nil =>
    cases p <;> cases q <;> simp_all [strcasecmp, fold]
  | cons c x ih =>
    cases p with
    | nil => cases q <;> simp_all [strcasecmp, fold]
    | cons a p =>
      cases q with
      | nil => simp_all [fold]
      | cons b q =>
        simp only [fold, List.map_cons, List.cons.injEq] at h
        simp only [strcasecmp, List.headD_cons, List.tail_cons, h.1]
        rw [ih p q h.2]

theorem strcasecmp_congr_left (p q x : List Nat) (h : fold p = fold q) :
    strcasecmp p x = strcasecmp q x := by
  rw [strcasecmp_antisymm x p, strcasecmp_antisymm x q, strcasecmp_congr_right x p q h]

/-- The loop `bsearchLoop` on a range whose comparison signs are monotone: a match is found
exactly when the range holds one. -/
theorem bsearchLoop_isSome_iff (cmp : Nat → Int) (n : Nat)
    (hlt : ∀ i j, i ≤ j → j < n → cmp i < 0 → cmp j < 0)
    (hgt : ∀ i j, i ≤ j → j < n → cmp j > 0 → cmp i > 0)
    (fuel l u : Nat) (hfuel : u - l ≤ fuel) (hu : u ≤ n) :
    (bsearchLoop cmp fuel l u).isSome = true ↔ ∃ i, l ≤ i ∧ i < u ∧ cmp i = 0 := by
  induction fuel generalizing l u with
  | zero =>
    simp only [bsearchLoop, Option.isSome_none, Bool.false_eq_true, false_iff]
    rintro ⟨i, h1, h2, _⟩
    omega
  | succ fuel ih =>
    unfold bsearchLoop
    by_cases hlu : l < u
    · have hmid1 : l ≤ (l + u) / 2 := by omega
      have hmid2 : (l + u) / 2 < u := by omega
      simp only [hlu, if_true]
      by_cases hneg : cmp ((l + u) / 2) < 0
      · simp only [hneg, if_true]
        rw [ih l ((l + u) / 2) (by omega) (by omega)]
        constructor
        · rintro ⟨i, h1, h2, h3⟩
          exact ⟨i, h1, by omega, h3⟩
        · rintro ⟨i, h1, h2, h3⟩
          refine ⟨i, h1, ?_, h3⟩
          by_contra hc
          have := hlt ((l + u) / 2) i (by omega) (by omega) hneg
          omega
      · by_cases hpos : cmp ((l + u) / 2) > 0
        · simp only [hneg, hpos, if_true, if_false]
          rw [ih ((l + u) / 2 + 1) u (by omega) hu]
          constructor
          · rintro ⟨i, h1, h2, h3⟩
            exact ⟨i, by omega, h2, h3⟩
          · rintro ⟨i, h1, h2, h3⟩
            refine ⟨i, ?_, h2, h3⟩
            by_contra hc
            have := hgt i ((l + u) / 2) (by omega) (by omega) hpos
            omega
        · simp only [hneg, hpos, if_false, Option.isSome_some, true_iff]
          exact ⟨(l + u) / 2, hmid1, hmid2, by omega⟩
    · simp only [hlu, if_false, Option.isSome_none, Bool.false_eq_true, false_iff]
      rintro ⟨i, h1, h2, _⟩
      omega

/-- The search `bsearch` over a list sorted by a comparator that is antisymmetric and transitive
finds the key exactly when some element compares equal to it. -/
theorem bsearch_isSome_iff {β : Type} (cmp : List Nat → β → Int) (le : β → β → Prop)
    (key : List Nat) (base : List β) (dflt : β)
    (hlt : ∀ a b, le a b → cmp key a < 0 → cmp key b < 0)
    (hgt : ∀ a b, le a b → cmp key b > 0 → cmp key a > 0)
    (hsorted : base.Pairwise le) :
    (bsearch key base dflt base.length cmp).isSome = true ↔ ∃ b ∈ base, cmp key b = 0 := by
  unfold bsearch
  have hmono : ∀ i j, i ≤ j → j < base.length →
      (i = j ∨ le (base.getD i dflt) (base.getD j dflt)) := by
    intro i j hij hj
    by_cases he : i = j
    · exact Or.inl he
    · right
      have hi : i < base.length := by omega
      rw [List.getD_eq_getElem _ _ hi, List.getD_eq_getElem _ _ hj]
      exact List.pairwise_iff_getElem.mp hsorted i j hi hj (by omega)
  rw [bsearchLoop_isSome_iff (fun idx => cmp key (base.getD idx dflt)) base.length
    (fun i j hij hj h => by
      rcases hmono i j hij hj with he | hle
      · subst he; exact h
      · exact hlt _ _ hle h)
    (fun i j hij hj h => by
      rcases hmono i j hij hj with he | hle
      · subst he; exact h
      · exact hgt _ _ hle h)
    base.length 0 base.length (by omega) (le_refl _)]
  constructor
  · rintro ⟨i, _, hi, h⟩
    refine ⟨base.getD i dflt, ?_, h⟩
    rw [List.getD_eq_getElem _ _ hi]
    exact List.getElem_mem hi
  · rintro ⟨b, hb, h⟩
    obtain ⟨i, hi, rfl⟩ := List.getElem_of_mem hb
    refine ⟨i, Nat.zero_le _, hi, ?_⟩
    show cmp key (base.getD i dflt) = 0
    rw [List.getD_eq_getElem _ _ hi]
    exact h

theorem sortInsert_perm {β : Type} (compar : β → β → Int) (a : β) (l : List β) :
    (sortInsert compar a l).Perm (a :: l) := by
  induction l with
  | nil => exact List.Perm.refl _
  | cons b l ih =>
    unfold sortInsert
    split_ifs
    · exact List.Perm.refl _
    · exact (List.Perm.cons b ih).trans (List.Perm.swap a b l)

theorem sortBy_perm {β : Type} (compar : β → β → Int) (l : List β) :
    (sortBy compar l).Perm l := by
  induction l with
  | nil => exact List.Perm.refl _
  | cons a l ih =>
    unfold sortBy
    exact (sortInsert_perm compar a _).trans (List.Perm.cons a ih)

theorem sortInsert_pairwise {β : Type} (compar : β → β → Int)
    (htot : ∀ a b, compar a b ≤ 0 ∨ compar b a ≤ 0)
    (htrans : ∀ a b c, compar a b ≤ 0 → compar b c ≤ 0 → compar a c ≤ 0)
    (a : β) (l : List β) (hl : l.Pairwise (fun x y => compar x y ≤ 0)) :
    (sortInsert compar a l).Pairwise (fun x y => compar x y ≤ 0) := by
  induction l with
  | nil => simp [sortInsert]
  | cons b l ih =>
    unfold sortInsert
    rw [List.pairwise_cons] at hl
    split_ifs with hab
    · refine List.pairwise_cons.mpr ⟨?_, List.pairwise_cons.mpr hl⟩
      intro c hc
      rcases List.mem_cons.mp hc with rfl | hc
      · exact hab
      · exact htrans _ _ _ hab (hl.1 c hc)
    · refine List.pairwise_cons.mpr ⟨?_, ih hl.2⟩
      intro c hc
      rcases List.mem_cons.mp ((sortInsert_perm compar a l).subset hc) with rfl | hc
      · rcases htot c b with h | h
        · exact absurd h hab
        · exact h
      · exact hl.1 c hc

theorem sortBy_pairwise {β : Type} (compar : β → β → Int)
    (htot : ∀ a b, compar a b ≤ 0 ∨ compar b a ≤ 0)
    (htrans : ∀ a b c, compar a b ≤ 0 → compar b c ≤ 0 → compar a c ≤ 0)
    (l : List β) : (sortBy compar l).Pairwise (fun x y => compar x y ≤ 0) := by
  induction l with
  | nil => simp [sortBy]
  | cons a l ih =>
    unfold sortBy
    exact sortInsert_pairwise compar htot htrans a _ ih

theorem qsort_of_length {β : Type} (l : List β) (n : Nat) (compar : β → β → Int)
    (h : l.length = n) : qsort l n compar = sortBy compar l := by
  subst h
  simp [qsort]

theorem getD_append_length (pre : List Nat) (c : Nat) (rest : List Nat) :
    (pre ++ c :: rest).getD pre.length 0 = c := by
  induction pre with
  | nil => rfl
  | cons x pre ih => simpa [List.getD_cons_succ] using ih

theorem set_append_length (pre : List Nat) (c v : Nat) (rest : List Nat) :
    (pre ++ c :: rest).set pre.length v = pre ++ v :: rest := by
  induction pre with
  | nil => rfl
  | cons x pre ih => simp [List.set, ih]

theorem memchr_found (c : Nat) (w : List Nat) (hw : c ∉ w) (pre rest : List Nat) (len : Nat)
    (hlen : w.length < len) :
    memchr (pre ++ w ++ c :: rest) c pre.length len = some (pre.length + w.length) := by
  induction w generalizing pre len with
  | nil =>
    obtain ⟨len, rfl⟩ : ∃ m, len = m + 1 := ⟨len - 1, by simp at hlen; omega⟩
    unfold memchr
    rw [List.append_nil, getD_append_length, if_pos rfl]
    rfl
  | cons x w ih =>
    obtain ⟨len, rfl⟩ : ∃ m, len = m + 1 := ⟨len - 1, by simp at hlen; omega⟩
    have hx : x ≠ c := fun h => hw (by simp [h])
    have hw2 : c ∉ w := fun h => hw (List.mem_cons_of_mem _ h)
    have hmem : pre ++ x :: w ++ c :: rest = pre ++ x :: (w ++ c :: rest) := by simp
    have hmem2 : pre ++ x :: w ++ c :: rest = (pre ++ [x]) ++ w ++ c :: rest := by simp
    have h1 : (pre ++ x :: w ++ c :: rest).getD pre.length 0 = x := by
      rw [hmem]; exact getD_append_length pre x _
    unfold memchr
    rw [h1, if_neg hx, hmem2]
    have := ih hw2 (pre ++ [x]) len (by simp at hlen; omega)
    simp only [List.length_append, List.length_singleton] at this
    rw [this]
    simp only [List.length_cons]
    congr 1
    omega

theorem memchr_none (c : Nat) (tail : List Nat) (ht : c ∉ tail) (pre rest : List Nat) :
    memchr (pre ++ tail ++ rest) c pre.length tail.length = none := by
  induction tail generalizing pre with
  | nil => rfl
  | cons x tail ih =>
    have hx : x ≠ c := fun h => ht (by simp [h])
    have ht2 : c ∉ tail := fun h => ht (List.mem_cons_of_mem _ h)
    have hmem : pre ++ x :: tail ++ rest = pre ++ x :: (tail ++ rest) := by simp
    have hmem2 : pre ++ x :: tail ++ rest = (pre ++ [x]) ++ tail ++ rest := by simp
    have h1 : (pre ++ x :: tail ++ rest).getD pre.length 0 = x := by
      rw [hmem]; exact getD_append_length pre x _
    simp only [List.length_cons]
    unfold memchr
    rw [h1, if_neg hx, hmem2]
    have := ih ht2 (pre ++ [x])
    simp only [List.length_append, List.length_singleton] at this
    exact this

theorem fileOf_length_pos (w : List Nat) (W : List (List Nat)) (tail : List Nat) :
    w.length < (fileOf (w :: W) ++ tail).length := by
  simp only [fileOf, List.length_append, List.length_cons]; omega

/-- The first loop of `init_dict` on the lines `W` followed by an unterminated `tail`:
every line-feed becomes a NUL and the count grows by the number of lines. -/
theorem splitLoop_lines (W : List (List Nat)) (hW : ∀ x ∈ W, 10 ∉ x)
    (tail : List Nat) (ht : 10 ∉ tail) (pre : List Nat) (count fuel : Nat)
    (hfuel : (fileOf W ++ tail).length ≤ fuel) :
    splitLoop fuel (pre ++ (fileOf W ++ tail) ++ [0]) pre.length (fileOf W ++ tail).length count
      = (pre ++ (blockOf W ++ tail) ++ [0], count + W.length) := by
  induction W generalizing pre count fuel with
  | nil =>
    simp only [fileOf, blockOf, List.nil_append, List.length_nil, Nat.add_zero]
    cases fuel with
    | zero => rfl
    | succ fuel =>
      unfold splitLoop
      split_ifs with hlen
      · rw [memchr_none 10 tail ht pre [0]]
      · rfl
  | cons w W ih =>
    have hw : 10 ∉ w := hW w (List.mem_cons_self _ _)
    have hW2 : ∀ x ∈ W, 10 ∉ x := fun x hx => hW x (List.mem_cons_of_mem _ hx)
    have hpos := fileOf_length_pos w W tail
    obtain ⟨fuel, rfl⟩ : ∃ m, fuel = m + 1 := ⟨fuel - 1, by omega⟩
    have hmem : pre ++ (fileOf (w :: W) ++ tail) ++ [0]
        = pre ++ w ++ 10 :: (fileOf W ++ tail ++ [0]) := by simp [fileOf]
    have hfound := memchr_found 10 w hw pre (fileOf W ++ tail ++ [0]) _ hpos
    have hset : (pre ++ w ++ 10 :: (fileOf W ++ tail ++ [0])).set (pre.length + w.length) 0
        = (pre ++ w ++ [0]) ++ (fileOf W ++ tail) ++ [0] := by
      have := set_append_length (pre ++ w) 10 0 (fileOf W ++ tail ++ [0])
      simp only [List.length_append] at this
      rw [this]; simp
    have hlen' : (fileOf (w :: W) ++ tail).length - (pre.length + w.length - pre.length + 1)
        = (fileOf W ++ tail).length := by
      simp [fileOf]; omega
    have hp' : pre.length + w.length + 1 = (pre ++ w ++ [0]).length := by simp [Nat.add_assoc]
    unfold splitLoop
    rw [if_pos (by omega), hmem, hfound]
    simp only []
    rw [hset, hlen', hp', ih hW2 (pre ++ w ++ [0]) (count + 1) fuel
      (by simp [fileOf] at hfuel ⊢; omega)]
    simp [blockOf]
    omega

theorem cstr_append_nul (w rest : List Nat) (hw : 0 ∉ w) : cstr (w ++ 0 :: rest) = w := by
  induction w with
  | nil => simp [cstr_cons]
  | cons x w ih =>
    have hx : x ≠ 0 := fun h => hw (by simp [h])
    have hw2 : 0 ∉ w := fun h => hw (List.mem_cons_of_mem _ h)
    rw [List.cons_append, cstr_cons, if_neg hx, ih hw2]

theorem cstr_of_nul_free (s : List Nat) (hs : 0 ∉ s) : cstr s = s := by
  induction s with
  | nil => rfl
  | cons x s ih =>
    have hx : x ≠ 0 := fun h => hs (by simp [h])
    have hs2 : 0 ∉ s := fun h => hs (List.mem_cons_of_mem _ h)
    rw [cstr_cons, if_neg hx, ih hs2]

theorem strlen_eq (s : List Nat) : strlen s = (cstr s).length := rfl

/-- The second loop of `init_dict` on a block of NUL-terminated words: entry `i` points
at word `i`. -/
theorem indexLoop_words (W : List (List Nat)) (hW : ∀ x ∈ W, 0 ∉ x) (mem : List Nat)
    (p : Nat) (rest : List Nat) (h : mem.drop p = blockOf W ++ rest) :
    (indexLoop mem W.length p).map (fun q => cstr (mem.drop q)) = W := by
  induction W generalizing p with
  | nil => rfl
  | cons w W ih =>
    have hw : 0 ∉ w := hW w (List.mem_cons_self _ _)
    have hW2 : ∀ x ∈ W, 0 ∉ x := fun x hx => hW x (List.mem_cons_of_mem _ hx)
    have hdrop : mem.drop p = w ++ 0 :: (blockOf W ++ rest) := by
      rw [h]; simp [blockOf]
    have hc : cstr (mem.drop p) = w := by rw [hdrop]; exact cstr_append_nul w _ hw
    have hnext : mem.drop (p + strlen (mem.drop p) + 1) = blockOf W ++ rest := by
      rw [strlen_eq, hc]
      have h2 : mem.drop (p + w.length + 1) = (mem.drop p).drop (w.length + 1) := by
        rw [List.drop_drop, Nat.add_assoc]
      rw [h2, hdrop]
      have h3 : w ++ 0 :: (blockOf W ++ rest) = (w ++ [0]) ++ (blockOf W ++ rest) := by simp
      rw [h3]
      have h4 : w.length + 1 = (w ++ [0]).length := by simp
      rw [h4, List.drop_left]
    simp only [List.length_cons, indexLoop, List.map_cons, hc]
    rw [ih hW2 _ hnext]

theorem indexLoop_length (mem : List Nat) (n p : Nat) : (indexLoop mem n p).length = n := by
  induction n generalizing p with
  | zero => rfl
  | succ n ih => simp [indexLoop, ih]

theorem init_dict_loaded (k : Consts) (w : World) (path : List Nat) (W : List (List Nat))
    (tail : List Nat) (hW : ∀ x ∈ W, 10 ∉ x) (ht : 10 ∉ tail)
    (hw : w.holds (fileOf W ++ tail)) (hb : w.malloc_block = true)
    (hl : w.malloc_list = true) :
    init_dict k w { word_list := none, word_block := none, word_count := 0 } (some path)
      = (0, loaded W tail) := by
  obtain ⟨h1, h2, h3, h4⟩ := hw
  have hsplit := splitLoop_lines W hW tail ht [] 0 (fileOf W ++ tail).length (le_refl _)
  simp only [List.nil_append, List.length_nil, Nat.zero_add] at hsplit
  unfold init_dict
  simp only [h1, h2, h3, h4, hb, hl, Bool.not_true, Bool.false_eq_true, if_false, ne_eq,
    not_true_eq_false, hsplit, KADM5_OK, loaded]
  have hlen := indexLoop_length (blockOf W ++ tail ++ [0]) W.length 0
  rw [qsort_of_length _ _ _ hlen]

theorem dict_open_loaded (k : Consts) (w : World) (path : List Nat) (W : List (List Nat))
    (tail : List Nat) (hW : ∀ x ∈ W, 10 ∉ x) (ht : 10 ∉ tail)
    (hw : w.holds (fileOf W ++ tail)) (hd : w.malloc_dict = true)
    (hb : w.malloc_block = true) (hl : w.malloc_list = true) :
    dict_open k w (some path) = (0, some (loaded W tail)) := by
  simp [dict_open, hd, init_dict_loaded k w path W tail hW ht hw hb hl]

/-- A successful `dict_open` on a file that is read in full made all three
allocations. -/
theorem dict_open_ok_allocs (k : Consts) (w : World) (path content : List Nat)
    (d : dict_moddata) (hw : w.holds content)
    (hok : dict_open k w (some path) = (0, some d)) :
    w.malloc_dict = true ∧ w.malloc_block = true ∧ w.malloc_list = true := by
  obtain ⟨h1, h2, h3, h4⟩ := hw
  have hne : k.ENOMEM ≠ 0 := by have := k.ENOMEM_pos; omega
  unfold dict_open init_dict at hok
  simp only [h1, h2, h3, h4, ne_eq, not_true_eq_false, if_false, KADM5_OK] at hok
  cases hd : w.malloc_dict <;> cases hb : w.malloc_block <;> cases hl : w.malloc_list <;>
    simp [hd, hb, hl, hne] at hok ⊢

theorem loaded_lookup_iff (W : List (List Nat)) (tail : List Nat) (hW : ∀ x ∈ W, 0 ∉ x)
    (s : List Nat) :
    dict_lookup (loaded W tail) s = true ↔ ∃ x ∈ W, fold x = fold (cstr s) := by
  have hidx := indexLoop_words W hW (blockOf W ++ tail ++ [0]) 0 (tail ++ [0])
    (by simp)
  have hlen := indexLoop_length (blockOf W ++ tail ++ [0]) W.length 0
  generalize hmem : blockOf W ++ tail ++ [0] = mem at hidx hlen
  have hperm := sortBy_perm (fun p q => word_compare (mem.drop p) (mem.drop q))
    (indexLoop mem W.length 0)
  have hsorted := sortBy_pairwise (fun p q => word_compare (mem.drop p) (mem.drop q))
    (fun a b => by
      show strcasecmp _ _ ≤ 0 ∨ strcasecmp _ _ ≤ 0
      have := strcasecmp_antisymm (mem.drop a) (mem.drop b)
      omega)
    (fun a b c h1 h2 => strcasecmp_trans _ _ _ h1 h2)
    (indexLoop mem W.length 0)
  have hcount : W.length
      = (sortBy (fun p q => word_compare (mem.drop p) (mem.drop q))
          (indexLoop mem W.length 0)).length := by
    rw [hperm.length_eq, hlen]
  unfold dict_lookup loaded
  simp only [hmem, Option.getD_some]
  conv_lhs => arg 1; arg 1; arg 4; rw [hcount]
  rw [bsearch_isSome_iff (fun key p => word_compare key (mem.drop p))
    (fun p q => word_compare (mem.drop p) (mem.drop q) ≤ 0) s _ 0
    (fun a b hab h => by
      show strcasecmp _ _ < 0
      have h' : strcasecmp s (mem.drop a) < 0 := h
      by_contra hc
      have h1 : strcasecmp (mem.drop b) s ≤ 0 := by
        have := strcasecmp_antisymm s (mem.drop b); omega
      have h2 := strcasecmp_trans _ _ _ hab h1
      have := strcasecmp_antisymm s (mem.drop a)
      omega)
    (fun a b hab h => by
      show strcasecmp _ _ > 0
      have h' : strcasecmp s (mem.drop b) > 0 := h
      by_contra hc
      have h1 : strcasecmp s (mem.drop a) ≤ 0 := by omega
      have h2 := strcasecmp_trans _ _ _ h1 hab
      omega)
    hsorted]
  constructor
  · rintro ⟨p, hp, h0⟩
    have hp' := hperm.subset hp
    refine ⟨cstr (mem.drop p), ?_, ?_⟩
    · rw [← hidx]; exact List.mem_map_of_mem _ hp'
    · exact ((strcasecmp_eq_zero_iff s (mem.drop p)).mp h0).symm
  · rintro ⟨x, hx, hfold⟩
    rw [← hidx] at hx
    obtain ⟨p, hp, rfl⟩ := List.mem_map.mp hx
    exact ⟨p, hperm.symm.subset hp, (strcasecmp_eq_zero_iff s (mem.drop p)).mpr hfold.symm⟩

theorem lfLines_eq_nil_iff (s : List Nat) : lfLines s = [] ↔ 10 ∉ s := by
  induction s with
  | nil => simp [lfLines]
  | cons c s ih =>
    unfold lfLines
    by_cases hc : c = 10
    · simp [hc]
    · rw [if_neg hc]
      cases hl : lfLines s with
      | nil =>
        have := ih.mp hl
        simp [this, hc, Ne.symm hc]
      | cons w W =>
        have : ¬ (10 ∉ s) := fun h => by rw [ih.mpr h] at hl; cases hl
        simp only [reduceCtorEq, List.mem_cons, false_iff, not_not, not_or]
        exact fun h => this h.2

theorem fileOf_lfLines (s : List Nat) : fileOf (lfLines s) ++ tailSeg s = s := by
  induction s with
  | nil => rfl
  | cons c s ih =>
    unfold lfLines tailSeg
    by_cases hc : c = 10
    · simp [hc, fileOf, ih]
    · rw [if_neg hc, if_neg hc]
      cases hl : lfLines s with
      | nil =>
        have h10 := (lfLines_eq_nil_iff s).mp hl
        simp [h10, fileOf]
      | cons w W =>
        have h10 : 10 ∈ s := by
          by_contra h
          rw [(lfLines_eq_nil_iff s).mpr h] at hl
          cases hl
        rw [hl] at ih
        simp only [h10, if_true]
        conv_rhs => rw [← ih]
        simp [fileOf]

theorem lfLines_lf_free (s : List Nat) : ∀ x ∈ lfLines s, 10 ∉ x := by
  induction s with
  | nil => simp [lfLines]
  | cons c s ih =>
    unfold lfLines
    by_cases hc : c = 10
    · simp only [hc, if_true, List.mem_cons]
      rintro x (rfl | hx)
      · simp
      · exact ih x hx
    · rw [if_neg hc]
      cases hl : lfLines s with
      | nil => simp
      | cons w W =>
        rw [hl] at ih
        simp only [List.mem_cons]
        rintro x (rfl | hx)
        · have := ih w (List.mem_cons_self _ _)
          simp [this, Ne.symm hc]
        · exact ih x (List.mem_cons_of_mem _ hx)

theorem lfLines_subset (s : List Nat) : ∀ x ∈ lfLines s, ∀ b ∈ x, b ∈ s := by
  induction s with
  | nil => simp [lfLines]
  | cons c s ih =>
    unfold lfLines
    by_cases hc : c = 10
    · simp only [hc, if_true, List.mem_cons]
      rintro x (rfl | hx) b hb
      · cases hb
      · exact Or.inr (ih x hx b hb)
    · rw [if_neg hc]
      cases hl : lfLines s with
      | nil => simp
      | cons w W =>
        rw [hl] at ih
        simp only [List.mem_cons]
        rintro x (rfl | hx) b hb
        · rcases List.mem_cons.mp hb with rfl | hb
          · exact Or.inl rfl
          · exact Or.inr (ih w (List.mem_cons_self _ _) b hb)
        · exact Or.inr (ih x (List.mem_cons_of_mem _ hx) b hb)

theorem tailSeg_lf_free (s : List Nat) : 10 ∉ tailSeg s := by
  induction s with
  | nil => simp [tailSeg]
  | cons c s ih =>
    unfold tailSeg
    by_cases hc : c = 10
    · simpa [hc] using ih
    · rw [if_neg hc]
      by_cases h10 : 10 ∈ s
      · simpa [h10] using ih
      · simp [h10, Ne.symm hc]

theorem lfLines_length (s : List Nat) : (lfLines s).length = s.count 10 := by
  induction s with
  | nil => rfl
  | cons c s ih =>
    unfold lfLines
    by_cases hc : c = 10
    · simp [hc, ih]
    · have h2 : List.count 10 (c :: s) = List.count 10 s := by
        simp [List.count_cons, hc]
      rw [if_neg hc, h2, ← ih]
      cases hl : lfLines s <;> simp

/-! ## Shared consequences of a successful load -/

/-- A successful `dict_open` on a file of lines `W` and unterminated `tail` returns
the record `loaded W tail`. -/
theorem dict_open_ok_eq_loaded (k : Consts) (w : World) (path : List Nat)
    (W : List (List Nat)) (tail : List Nat) (d : dict_moddata) (hW : ∀ x ∈ W, 10 ∉ x)
    (ht : 10 ∉ tail) (hw : w.holds (fileOf W ++ tail))
    (hok : dict_open k w (some path) = (0, some d)) : d = loaded W tail := by
  obtain ⟨hd, hb, hl⟩ := dict_open_ok_allocs k w path _ d hw hok
  rw [dict_open_loaded k w path W tail hW ht hw hd hb hl] at hok
  simp only [Prod.mk.injEq, Option.some.injEq, true_and] at hok
  exact hok.symm

/-- The lookup after a successful open of a file of complete lines. -/
theorem lookup_lines_iff (k : Consts) (w : World) (path : List Nat)
    (W : List (List Nat)) (s : List Nat) (d : dict_moddata)
    (hW : ∀ x ∈ W, 0 ∉ x ∧ 10 ∉ x) (hw : w.holds (fileOf W))
    (hok : dict_open k w (some path) = (0, some d)) :
    dict_lookup d s = true ↔ ∃ x ∈ W, fold x = fold (cstr s) := by
  have hw' : w.holds (fileOf W ++ []) := by simpa using hw
  have hd := dict_open_ok_eq_loaded k w path W [] d (fun x hx => (hW x hx).2) (by simp) hw' hok
  rw [hd]
  exact loaded_lookup_iff W [] (fun x hx => (hW x hx).1) s

/-! ## The claims -/

/-- C1: after a successful `dict_open` on a file made of the words of `W` (free of NUL
and line-feed, possibly empty), each followed by one line-feed, the lookup of
`dict_check` finds a NUL-free string `s` exactly when `s` equals some word of `W`
after folding `A`-`Z` to `a`-`z` on both sides; and the answer is the same for the
file of every permutation of the lines. -/
theorem lookup_iff_folded_word (k : Consts) (w : World) (path : List Nat)
    (W : List (List Nat)) (s : List Nat) (d : dict_moddata)
    (hW : ∀ x ∈ W, 0 ∉ x ∧ 10 ∉ x) (hs : 0 ∉ s) (hw : w.holds (fileOf W))
    (hok : dict_open k w (some path) = (0, some d)) :
    (dict_lookup d s = true ↔ ∃ x ∈ W, fold x = fold s) ∧
    ∀ (W' : List (List Nat)) (w' : World) (path' : List Nat) (d' : dict_moddata),
      W'.Perm W → w'.holds (fileOf W') → dict_open k w' (some path') = (0, some d') →
      dict_lookup d' s = dict_lookup d s := by
  have h1 := lookup_lines_iff k w path W s d hW hw hok
  rw [cstr_of_nul_free s hs] at h1
  refine ⟨h1, ?_⟩
  intro W' w' path' d' hperm hw' hok'
  have hW' : ∀ x ∈ W', 0 ∉ x ∧ 10 ∉ x := fun x hx => hW x (hperm.subset hx)
  have h2 := lookup_lines_iff k w' path' W' s d' hW' hw' hok'
  rw [cstr_of_nul_free s hs] at h2
  rw [Bool.eq_iff_iff, h1, h2]
  constructor
  · rintro ⟨x, hx, h⟩; exact ⟨x, hperm.subset hx, h⟩
  · rintro ⟨x, hx, h⟩; exact ⟨x, hperm.symm.subset hx, h⟩

/-- Instance of `lookup_iff_folded_word`: the file `"hunter2\nqwerty\npassword\n"` and
the password `"Hunter2"`. -/
theorem lookup_iff_folded_word_witness :
    dict_lookup (loaded [bytes "hunter2", bytes "qwerty", bytes "password"] [])
        (bytes "Hunter2") = true ↔
      ∃ x ∈ [bytes "hunter2", bytes "qwerty", bytes "password"],
        fold x = fold (bytes "Hunter2") :=
  (lookup_iff_folded_word linuxConsts (fileWorld (bytes "hunter2\nqwerty\npassword\n"))
    (bytes "/dict") [bytes "hunter2", bytes "qwerty", bytes "password"] (bytes "Hunter2")
    (loaded [bytes "hunter2", bytes "qwerty", bytes "password"] [])
    (by decide) (by decide) (by decide) (by decide)).1

theorem componentLoop_cases (k : Consts) (password : List Nat) (comps : List (List Nat)) :
    (componentLoop k password comps = k.KADM5_PASS_Q_DICT ∧
        ∃ c ∈ comps, strcasecmp c password = 0) ∨
      (componentLoop k password comps = 0 ∧ ∀ c ∈ comps, strcasecmp c password ≠ 0) := by
  induction comps with
  | nil => right; simp [componentLoop]
  | cons c comps ih =>
    unfold componentLoop
    by_cases hc : strcasecmp c password = 0
    · left; rw [if_pos hc]; exact ⟨rfl, c, List.mem_cons_self _ _, hc⟩
    · rw [if_neg hc]
      rcases ih with ⟨h1, x, hx, h2⟩ | ⟨h1, h2⟩
      · left; exact ⟨h1, x, List.mem_cons_of_mem _ hx, h2⟩
      · right
        refine ⟨h1, ?_⟩
        intro x hx
        rcases List.mem_cons.mp hx with rfl | hx
        · exact hc
        · exact h2 x hx

/-- The verdict of `dict_check` under an attached policy, for any record. -/
theorem dict_check_active_iff (k : Consts) (d : dict_moddata) (password : List Nat)
    (princ : Principal) :
    (dict_check k d password true princ = k.KADM5_PASS_Q_DICT ↔
        (dict_lookup d password = true ∨ fold (cstr princ.realm) = fold (cstr password) ∨
          ∃ c ∈ princ.components, fold (cstr c) = fold (cstr password))) ∧
      (dict_check k d password true princ = k.KADM5_PASS_Q_DICT ∨
        dict_check k d password true princ = 0) := by
  have hk := k.PASS_Q_DICT_ne
  unfold dict_check
  simp only [Bool.not_true, Bool.false_eq_true, if_false]
  cases hl : dict_lookup d password with
  | true => simp
  | false =>
    simp only [Bool.false_eq_true, if_false, false_or]
    by_cases hr : strcasecmp princ.realm password = 0
    · have hr' := (strcasecmp_eq_zero_iff _ _).mp hr
      simp [hr, hr']
    · have hr' : ¬ fold (cstr princ.realm) = fold (cstr password) :=
        fun h => hr ((strcasecmp_eq_zero_iff _ _).mpr h)
      simp only [hr, hr', if_false, false_or]
      rcases componentLoop_cases k password princ.components with ⟨h1, x, hx, h2⟩ | ⟨h1, h2⟩
      · rw [h1]
        exact ⟨⟨fun _ => ⟨x, hx, (strcasecmp_eq_zero_iff _ _).mp h2⟩, fun _ => rfl⟩, Or.inl rfl⟩
      · rw [h1]
        refine ⟨⟨fun h => absurd h.symm hk, ?_⟩, Or.inr rfl⟩
        rintro ⟨x, hx, h⟩
        exact absurd ((strcasecmp_eq_zero_iff _ _).mpr h) (h2 x hx)

/-- C2: under a non-null policy `dict_check` returns `KADM5_PASS_Q_DICT` exactly when
the password is found in the dictionary, or case-insensitively equals the realm, or
case-insensitively equals one of the components; otherwise it returns 0, and it
returns no third value.  With the dictionary `"hunter2\nqwerty\npassword\n"`, realm
`"X"` and components `["bob"]`, `"correct-horse"` is accepted and `"bob"` rejected. -/
theorem dict_check_verdict (k : Consts) (d : dict_moddata) (password : List Nat)
    (princ : Principal) :
    (dict_check k d password true princ = k.KADM5_PASS_Q_DICT ↔
        (dict_lookup d password = true ∨ fold (cstr princ.realm) = fold (cstr password) ∨
          ∃ c ∈ princ.components, fold (cstr c) = fold (cstr password))) ∧
      (dict_check k d password true princ = 0 ↔
        ¬ (dict_lookup d password = true ∨ fold (cstr princ.realm) = fold (cstr password) ∨
          ∃ c ∈ princ.components, fold (cstr c) = fold (cstr password))) ∧
      (dict_check k d password true princ = k.KADM5_PASS_Q_DICT ∨
        dict_check k d password true princ = 0) ∧
      (dict_open k (fileWorld (bytes "hunter2\nqwerty\npassword\n")) (some (bytes "/dict"))).2.map
          (fun d0 => (dict_check k d0 (bytes "correct-horse") true ⟨bytes "X", [bytes "bob"]⟩,
            dict_check k d0 (bytes "bob") true ⟨bytes "X", [bytes "bob"]⟩))
        = some (0, k.KADM5_PASS_Q_DICT) := by
  obtain ⟨h1, h2⟩ := dict_check_active_iff k d password princ
  refine ⟨h1, ?_, h2, ?_⟩
  · constructor
    · intro h0 hyes
      exact k.PASS_Q_DICT_ne ((h1.mpr hyes).symm.trans h0)
    · intro hn
      rcases h2 with h | h
      · exact absurd (h1.mp h) hn
      · exact h
  · have hopen : dict_open k (fileWorld (bytes "hunter2\nqwerty\npassword\n"))
        (some (bytes "/dict"))
        = (0, some (loaded [bytes "hunter2", bytes "qwerty", bytes "password"] [])) :=
      dict_open_loaded k _ _ [bytes "hunter2", bytes "qwerty", bytes "password"] []
        (by decide) (by decide) (by decide) rfl rfl rfl
    rw [hopen]
    simp only [Option.map_some', Option.some.injEq, Prod.mk.injEq]
    constructor
    · have hno : ¬ (dict_lookup (loaded [bytes "hunter2", bytes "qwerty", bytes "password"] [])
            (bytes "correct-horse") = true ∨
          fold (cstr (bytes "X")) = fold (cstr (bytes "correct-horse")) ∨
          ∃ c ∈ [bytes "bob"], fold (cstr c) = fold (cstr (bytes "correct-horse"))) := by
        decide
      have h3 := dict_check_active_iff k
        (loaded [bytes "hunter2", bytes "qwerty", bytes "password"] [])
        (bytes "correct-horse") ⟨bytes "X", [bytes "bob"]⟩
      rcases h3.2 with h | h
      · exact absurd (h3.1.mp h) hno
      · exact h
    · exact (dict_check_active_iff k
        (loaded [bytes "hunter2", bytes "qwerty", bytes "password"] [])
        (bytes "bob") ⟨bytes "X", [bytes "bob"]⟩).1.mpr (by decide)

/-- C3: with a null policy `dict_check` returns 0 for every record, password and
principal, whether or not the password is a dictionary word, the realm or a
component. -/
theorem dict_check_no_policy (k : Consts) (d : dict_moddata) (password : List Nat)
    (princ : Principal) : dict_check k d password false princ = 0 := by
  simp [dict_check]

theorem dict_lookup_congr (d : dict_moddata) (p q : List Nat) (h : fold p = fold q) :
    dict_lookup d p = dict_lookup d q := by
  unfold dict_lookup bsearch word_compare
  cases d.word_list with
  | none => rfl
  | some wl =>
    have hfun : (fun idx => strcasecmp p ((d.word_block.getD []).drop (wl.getD idx 0)))
        = (fun idx => strcasecmp q ((d.word_block.getD []).drop (wl.getD idx 0))) :=
      funext fun idx => strcasecmp_congr_left p q _ h
    simp only [hfun]

theorem componentLoop_congr (k : Consts) (p q : List Nat) (h : fold p = fold q)
    (comps : List (List Nat)) : componentLoop k p comps = componentLoop k q comps := by
  induction comps with
  | nil => rfl
  | cons c comps ih =>
    unfold componentLoop
    rw [strcasecmp_congr_right c p q h, ih]

theorem mem_fold_iff (c : Nat) (hc : ∀ b, tolower b = c ↔ b = c) (x : List Nat) :
    c ∈ fold x ↔ c ∈ x := by
  unfold fold
  rw [List.mem_map]
  constructor
  · rintro ⟨b, hb, h⟩
    rw [(hc b).mp h] at hb
    exact hb
  · intro h
    exact ⟨c, h, (hc c).mpr rfl⟩

theorem tolower_eq_lf (b : Nat) : tolower b = 10 ↔ b = 10 := by
  unfold tolower; split <;> omega

theorem tailSeg_subset (s : List Nat) : ∀ b ∈ tailSeg s, b ∈ s := by
  induction s with
  | nil => simp [tailSeg]
  | cons c s ih =>
    unfold tailSeg
    intro b hb
    by_cases hc : c = 10
    · rw [if_pos hc] at hb
      exact List.mem_cons_of_mem _ (ih b hb)
    · rw [if_neg hc] at hb
      by_cases h10 : 10 ∈ s
      · rw [if_pos h10] at hb
        exact List.mem_cons_of_mem _ (ih b hb)
      · rw [if_neg h10] at hb
        exact hb

/-- A successful `dict_open` on any file content yields the record built from its
line-feed-terminated lines and its unterminated tail. -/
theorem dict_open_ok_eq_loaded_content (k : Consts) (w : World) (path content : List Nat)
    (d : dict_moddata) (hw : w.holds content)
    (hok : dict_open k w (some path) = (0, some d)) :
    d = loaded (lfLines content) (tailSeg content) := by
  have hw' : w.holds (fileOf (lfLines content) ++ tailSeg content) := by
    rw [fileOf_lfLines]; exact hw
  exact dict_open_ok_eq_loaded k w path _ _ d (lfLines_lf_free content)
    (tailSeg_lf_free content) hw' hok

theorem loaded_word_count (W : List (List Nat)) (tail : List Nat) :
    (loaded W tail).word_count = W.length ∧
      (loaded W tail).word_list.map List.length = some W.length := by
  refine ⟨rfl, ?_⟩
  simp only [loaded, Option.map_some', Option.some.injEq]
  rw [(sortBy_perm _ _).length_eq, indexLoop_length]

/-- C5 (as the code has it): on the NUL-free content `"hunter2\nqwerty\npassword"`,
whose last byte is not a line-feed, `dict_open` succeeds with two index entries for two
line-feed bytes, not three; the final line `"password"` is not found and `dict_check`
accepts it under an active policy. -/
theorem last_line_unterminated_counterexample :
    0 ∉ bytes "hunter2\nqwerty\npassword" ∧
      (bytes "hunter2\nqwerty\npassword").getLast? ≠ some 10 ∧
      dict_open linuxConsts (fileWorld (bytes "hunter2\nqwerty\npassword"))
          (some (bytes "/dict"))
        = (0, some (loaded [bytes "hunter2", bytes "qwerty"] (bytes "password"))) ∧
      (loaded [bytes "hunter2", bytes "qwerty"] (bytes "password")).word_count
        ≠ (bytes "hunter2\nqwerty\npassword").count 10 + 1 ∧
      dict_lookup (loaded [bytes "hunter2", bytes "qwerty"] (bytes "password"))
        (bytes "password") = false ∧
      dict_check linuxConsts (loaded [bytes "hunter2", bytes "qwerty"] (bytes "password"))
        (bytes "password") true ⟨bytes "X", [bytes "bob"]⟩ = 0 := by
  decide

/-- C5 (amended): for every NUL-free file content, after a successful open the number
of index entries equals the number of line-feed bytes, so what follows the last
line-feed gets no entry; a NUL-free password is found exactly when it
case-insensitively equals one of the line-feed-terminated lines, and this is also the
condition under which the final unterminated line is found. -/
theorem lookup_iff_terminated_line (k : Consts) (w : World) (path content : List Nat)
    (s : List Nat) (d : dict_moddata) (h0 : 0 ∉ content) (hs : 0 ∉ s)
    (hw : w.holds content) (hok : dict_open k w (some path) = (0, some d)) :
    d.word_count = content.count 10 ∧
      d.word_list.map List.length = some (content.count 10) ∧
      (dict_lookup d s = true ↔ ∃ x ∈ lfLines content, fold x = fold s) ∧
      (dict_lookup d (tailSeg content) = true ↔
        ∃ x ∈ lfLines content, fold x = fold (tailSeg content)) := by
  have hd := dict_open_ok_eq_loaded_content k w path content d hw hok
  have hW0 : ∀ x ∈ lfLines content, 0 ∉ x :=
    fun x hx h => h0 (lfLines_subset content x hx 0 h)
  have ht0 : 0 ∉ tailSeg content := fun h => h0 (tailSeg_subset content 0 h)
  have hc := loaded_word_count (lfLines content) (tailSeg content)
  rw [lfLines_length] at hc
  have h1 := loaded_lookup_iff (lfLines content) (tailSeg content) hW0 s
  have h2 := loaded_lookup_iff (lfLines content) (tailSeg content) hW0 (tailSeg content)
  rw [cstr_of_nul_free s hs] at h1
  rw [cstr_of_nul_free _ ht0] at h2
  rw [hd]
  exact ⟨hc.1, hc.2, h1, h2⟩

/-- Instance of `lookup_iff_terminated_line`: the content `"hunter2\nqwerty\npassword"`
and the password `"password"`. -/
theorem lookup_iff_terminated_line_witness :
    (loaded [bytes "hunter2", bytes "qwerty"] (bytes "password")).word_count
      = (bytes "hunter2\nqwerty\npassword").count 10 :=
  (lookup_iff_terminated_line linuxConsts (fileWorld (bytes "hunter2\nqwerty\npassword"))
    (bytes "/dict") (bytes "hunter2\nqwerty\npassword") (bytes "password")
    (loaded [bytes "hunter2", bytes "qwerty"] (bytes "password"))
    (by decide) (by decide) (by decide) (by decide)).1

/-- The record after an open that loads no file. -/
theorem dict_lookup_no_list (word_block : Option (List Nat)) (n : Nat) (password : List Nat) :
    dict_lookup { word_list := none, word_block := word_block, word_count := n } password
      = false := rfl

theorem dict_lookup_no_words (wl : Option (List Nat)) (word_block : Option (List Nat))
    (password : List Nat) :
    dict_lookup { word_list := wl, word_block := word_block, word_count := 0 } password
      = false := by
  cases wl <;> rfl

/-- C6: `dict_open` returns 0 with a non-null matcher both when the path is NULL and
when `open` fails with `ENOENT` (the matcher record itself being allocated); the
matcher has `word_list` NULL and `word_count` 0, the lookup finds no password, and
`dict_check` under an active policy rejects exactly the passwords that
case-insensitively equal the realm or a component. -/
theorem dict_open_without_file (k : Consts) (w : World) (dict_file : Option (List Nat))
    (password : List Nat) (princ : Principal) (hd : w.malloc_dict = true)
    (hfile : dict_file = none ∨ w.open_errno = some k.ENOENT) :
    dict_open k w dict_file
        = (0, some { word_list := none, word_block := none, word_count := 0 }) ∧
      dict_lookup { word_list := none, word_block := none, word_count := 0 } password
        = false ∧
      (dict_check k { word_list := none, word_block := none, word_count := 0 } password true
          princ = k.KADM5_PASS_Q_DICT ↔
        (fold (cstr princ.realm) = fold (cstr password) ∨
          ∃ c ∈ princ.components, fold (cstr c) = fold (cstr password))) ∧
      (dict_check k { word_list := none, word_block := none, word_count := 0 } password true
          princ = 0 ↔
        ¬ (fold (cstr princ.realm) = fold (cstr password) ∨
          ∃ c ∈ princ.components, fold (cstr c) = fold (cstr password))) := by
  have hopen : dict_open k w dict_file
      = (0, some { word_list := none, word_block := none, word_count := 0 }) := by
    unfold dict_open init_dict
    cases dict_file with
    | none => simp [hd, KADM5_OK]
    | some path =>
      rcases hfile with h | h
      · cases h
      · simp [hd, h, KADM5_OK]
  have hv := dict_check_active_iff k
    { word_list := none, word_block := none, word_count := 0 } password princ
  rw [dict_lookup_no_list] at hv
  simp only [Bool.false_eq_true, false_or] at hv
  refine ⟨hopen, rfl, hv.1, ?_⟩
  constructor
  · intro h0 hyes
    exact k.PASS_Q_DICT_ne ((hv.1.mpr hyes).symm.trans h0)
  · intro hn
    rcases hv.2 with h | h
    · exact absurd (hv.1.mp h) hn
    · exact h

/-- Instance of `dict_open_without_file`: no path configured. -/
theorem dict_open_without_file_witness :
    dict_open linuxConsts (fileWorld []) none
      = (0, some { word_list := none, word_block := none, word_count := 0 }) :=
  (dict_open_without_file linuxConsts (fileWorld []) none (bytes "bob")
    ⟨bytes "X", [bytes "bob"]⟩ rfl (Or.inl rfl)).1

/-- C7 (as the code has it): a zero-byte file is opened and read without I/O error,
yet `dict_open` returns `ENOMEM` with no matcher when the content buffer allocation
returns NULL, and also when the index allocation (a zero-size request for this file)
returns NULL. -/
theorem dict_open_empty_file_counterexample :
    World.holds { fileWorld [] with malloc_block := false } [] ∧
      dict_open linuxConsts { fileWorld [] with malloc_block := false }
          (some (bytes "/dict"))
        = (linuxConsts.ENOMEM, none) ∧
      World.holds { fileWorld [] with malloc_list := false } [] ∧
      dict_open linuxConsts { fileWorld [] with malloc_list := false }
          (some (bytes "/dict"))
        = (linuxConsts.ENOMEM, none) := by
  decide

/-- C7 (amended): for a zero-byte file that is opened and read without I/O error, when
the three allocations of the load return non-NULL, `dict_open` returns 0 with a matcher
whose lookup is false for every password, while `dict_check` under an active policy
still rejects a password that case-insensitively equals the realm or a component. -/
theorem dict_open_empty_file (k : Consts) (w : World) (path password : List Nat)
    (princ : Principal) (hw : w.holds []) (hd : w.malloc_dict = true)
    (hb : w.malloc_block = true) (hl : w.malloc_list = true) :
    dict_open k w (some path)
        = (0, some { word_list := some [], word_block := some [0], word_count := 0 }) ∧
      dict_lookup { word_list := some [], word_block := some [0], word_count := 0 } password
        = false ∧
      (dict_check k { word_list := some [], word_block := some [0], word_count := 0 } password
          true princ = k.KADM5_PASS_Q_DICT ↔
        (fold (cstr princ.realm) = fold (cstr password) ∨
          ∃ c ∈ princ.components, fold (cstr c) = fold (cstr password))) := by
  have hopen := dict_open_loaded k w path [] [] (by simp) (by simp) (by simpa [fileOf] using hw)
    hd hb hl
  have hv := dict_check_active_iff k
    { word_list := some [], word_block := some [0], word_count := 0 } password princ
  rw [dict_lookup_no_words] at hv
  simp only [Bool.false_eq_true, false_or] at hv
  exact ⟨hopen, dict_lookup_no_words _ _ _, hv.1⟩

/-- Instance of `dict_open_empty_file`: the empty file, password `"bob"`. -/
theorem dict_open_empty_file_witness :
    dict_open linuxConsts (fileWorld []) (some (bytes "/dict"))
      = (0, some { word_list := some [], word_block := some [0], word_count := 0 }) :=
  (dict_open_empty_file linuxConsts (fileWorld []) (bytes "/dict") (bytes "bob")
    ⟨bytes "X", [bytes "bob"]⟩ (by decide) rfl rfl rfl).1

/-- The return code of `dict_open` is 0 exactly when it hands out a matcher. -/
theorem dict_open_code_handle (k : Consts) (w : World) (dict_file : Option (List Nat)) :
    (dict_open k w dict_file).1 = 0 ↔ (dict_open k w dict_file).2 ≠ none := by
  have hne : k.ENOMEM ≠ 0 := by have := k.ENOMEM_pos; omega
  unfold dict_open
  cases w.malloc_dict with
  | false => simp [hne]
  | true =>
    simp only [Bool.not_true, Bool.false_eq_true, if_false]
    split_ifs with h
    · simp [h]
    · simp

/-- C8: when `open` fails with an error number `e` other than `ENOENT`, `dict_open`
returns exactly `e` and the output handle is NULL; and for every outcome, a nonzero
return code comes with a NULL handle and a zero return code with a non-null one. -/
theorem dict_open_open_error (k : Consts) (w : World) (path : List Nat) (e : Int)
    (hd : w.malloc_dict = true) (he0 : e ≠ 0) (he : e ≠ k.ENOENT)
    (hopen : w.open_errno = some e) :
    dict_open k w (some path) = (e, none) ∧
      ∀ (w' : World) (dict_file : Option (List Nat)),
        ((dict_open k w' dict_file).1 = 0 ↔ (dict_open k w' dict_file).2 ≠ none) := by
  refine ⟨?_, fun w' f => dict_open_code_handle k w' f⟩
  unfold dict_open init_dict
  simp [hd, hopen, he, he0]

/-- Instance of `dict_open_open_error`: `open` fails with `EACCES` (13). -/
theorem dict_open_open_error_witness :
    dict_open linuxConsts { fileWorld [] with open_errno := some 13 } (some (bytes "/dict"))
      = (13, none) :=
  (dict_open_open_error linuxConsts { fileWorld [] with open_errno := some 13 }
    (bytes "/dict") 13 rfl (by decide) (by decide) rfl).1

/-- C9 (at the failing input): the file has size 4, `read` delivers 2 bytes and sets no
error, `errno` being 0; `dict_open` returns 0 and hands out a matcher with no word
list. -/
theorem short_read_errno_zero :
    dict_open linuxConsts
        { fileWorld (bytes "abc\n") with read := ReadResult.got (bytes "ab"), errno := 0 }
        (some (bytes "/dict"))
      = (0, some { word_list := none, word_block := some (bytes "ab"), word_count := 0 }) := by
  decide

/-- C10: if one of the three allocations of the load is made and fails (the matcher
record; the content buffer, after `open` and `fstat` succeeded; the index, after the
file was read in full), `dict_open` returns `ENOMEM` with a NULL handle; and when all
allocations and I/O steps succeed, `dict_open` returns 0, not `ENOMEM`. -/
theorem dict_open_alloc_failure (k : Consts) (w : World) (dict_file : Option (List Nat))
    (hfail : w.malloc_dict = false ∨
      (dict_file ≠ none ∧ w.open_errno = none ∧ w.fstat_errno = none ∧
        (w.malloc_block = false ∨
          (w.malloc_list = false ∧
            ∃ data, w.read = ReadResult.got data ∧ data.length = w.st_size)))) :
    dict_open k w dict_file = (k.ENOMEM, none) ∧
      ∀ (w' : World) (path content : List Nat),
        w'.malloc_dict = true → w'.malloc_block = true → w'.malloc_list = true →
        w'.holds content →
        (dict_open k w' (some path)).1 = 0 ∧ (dict_open k w' (some path)).1 ≠ k.ENOMEM ∧
          (dict_open k w' none).1 = 0 ∧ (dict_open k w' none).1 ≠ k.ENOMEM := by
  have hne : k.ENOMEM ≠ 0 := by have := k.ENOMEM_pos; omega
  constructor
  · rcases hfail with h | ⟨hf, h1, h2, h⟩
    · simp [dict_open, h]
    · cases hd : w.malloc_dict with
      | false => simp [dict_open, hd]
      | true =>
        obtain ⟨path, rfl⟩ : ∃ p, dict_file = some p := by
          cases dict_file with
          | none => exact absurd rfl hf
          | some p => exact ⟨p, rfl⟩
        rcases h with h | ⟨hl, data, hr, hlen⟩
        · simp [dict_open, init_dict, hd, h1, h2, h, hne]
        · cases hb : w.malloc_block with
          | false => simp [dict_open, init_dict, hd, h1, h2, hb, hne]
          | true => simp [dict_open, init_dict, hd, h1, h2, hb, hr, hlen, hl, hne]
  · intro w' path content hd hb hl hw
    have h1 := dict_open_loaded k w' path (lfLines content) (tailSeg content)
      (lfLines_lf_free content) (tailSeg_lf_free content)
      (by rw [fileOf_lfLines]; exact hw) hd hb hl
    have h2 : dict_open k w' none
        = (0, some { word_list := none, word_block := none, word_count := 0 }) := by
      simp [dict_open, init_dict, hd, KADM5_OK]
    rw [h1, h2]
    exact ⟨rfl, fun h => hne h.symm, rfl, fun h => hne h.symm⟩

/-- Instance of `dict_open_alloc_failure`: the index allocation fails after the file
`"a\nb\n"` was read in full. -/
theorem dict_open_alloc_failure_witness :
    dict_open linuxConsts { fileWorld (bytes "a\nb\n") with malloc_list := false }
        (some (bytes "/dict"))
      = (12, none) :=
  (dict_open_alloc_failure linuxConsts { fileWorld (bytes "a\nb\n") with malloc_list := false }
    (some (bytes "/dict"))
    (Or.inr ⟨by decide, rfl, rfl, Or.inr ⟨rfl, bytes "a\nb\n", rfl, by decide⟩⟩)).1

theorem free_live (h : Heap) (a : Nat) (ha : a ∈ h.live) :
    free h (some a)
      = some { live := h.live.erase a, recs := h.recs.filter (fun r => r.1 != a) } := by
  simp [free, ha]

/-- Freeing NULL or a live block of a duplicate-free heap releases that block only. -/
theorem free_spec (h : Heap) (p : Option Nat) (hnd : h.live.Nodup)
    (hp : ∀ a, p = some a → a ∈ h.live) :
    ∃ h', free h p = some h' ∧ h'.live.Nodup ∧
      ∀ x, x ∈ h'.live ↔ (x ∈ h.live ∧ p ≠ some x) := by
  cases p with
  | none => exact ⟨h, rfl, hnd, fun x => by simp⟩
  | some a =>
    refine ⟨_, free_live h a (hp a rfl), hnd.erase a, ?_⟩
    intro x
    simp only [hnd.mem_erase_iff, ne_eq, Option.some.injEq]
    constructor
    · rintro ⟨h1, h2⟩; exact ⟨h2, fun h => h1 h.symm⟩
    · rintro ⟨h1, h2⟩; exact ⟨fun h => h2 h.symm, h1⟩

theorem destroy_dict_dangling (h : Heap) (a : Nat) (ha : a ∉ h.live) :
    destroy_dict h (some a) = none := by
  simp [destroy_dict, ha]

/-- Closing a live matcher whose blocks are live and distinct: the three blocks are
released, nothing else is, and the handle is left dangling. -/
theorem destroy_dict_live (h : Heap) (a : Nat) (r : DictRec) (hnd : h.live.Nodup)
    (ha : a ∈ h.live) (hr : h.recs.lookup a = some r)
    (hl : ∀ l, r.word_list = some l → l ∈ h.live ∧ l ≠ a)
    (hb : ∀ b, r.word_block = some b → b ∈ h.live ∧ b ≠ a ∧ r.word_list ≠ some b) :
    ∃ h', destroy_dict h (some a) = some h' ∧
      ∀ x, x ∈ h'.live ↔
        (x ∈ h.live ∧ x ≠ a ∧ r.word_list ≠ some x ∧ r.word_block ≠ some x) := by
  obtain ⟨h1, hf1, hnd1, hmem1⟩ := free_spec h r.word_list hnd (fun l hl' => (hl l hl').1)
  obtain ⟨h2, hf2, hnd2, hmem2⟩ := free_spec h1 r.word_block hnd1 (fun b hb' => by
    rw [hmem1]
    exact ⟨(hb b hb').1, (hb b hb').2.2⟩)
  have ha2 : a ∈ h2.live := by
    rw [hmem2, hmem1]
    refine ⟨⟨ha, ?_⟩, ?_⟩
    · intro hc; exact (hl a hc).2 rfl
    · intro hc; exact (hb a hc).2.1 rfl
  refine ⟨{ live := h2.live.erase a, recs := h2.recs.filter (fun r => r.1 != a) }, ?_, ?_⟩
  · simp [destroy_dict, ha, hr, hf1, hf2, free_live h2 a ha2]
  · intro x
    simp only [hnd2.mem_erase_iff, hmem2, hmem1]
    tauto

/-- C11 (at the failing input): `dict_close` on a NULL matcher is a no-op on every
allocation state.  On an open matcher it frees the word list, the word block and the
record, and resets nothing, although the header comment of `destroy_dict` says it
"sets count back to 0, and resets the pointers to NULL"; a second `dict_close` on the
same handle then reads the freed record and is undefined, not a no-op.  This holds for
every open matcher, and is evaluated for the matcher at address 1 with its word list at
2 and its word block at 3. -/
theorem dict_close_null_and_twice (h : Heap) (a : Nat) (r : DictRec) :
    dict_close h none = some h ∧
      (h.live.Nodup → a ∈ h.live → h.recs.lookup a = some r →
        (∀ l, r.word_list = some l → l ∈ h.live ∧ l ≠ a) →
        (∀ b, r.word_block = some b → b ∈ h.live ∧ b ≠ a ∧ r.word_list ≠ some b) →
        ∃ h', dict_close h (some a) = some h' ∧
          (∀ x, x ∈ h'.live ↔
            (x ∈ h.live ∧ x ≠ a ∧ r.word_list ≠ some x ∧ r.word_block ≠ some x)) ∧
          dict_close h' none = some h' ∧
          dict_close h' (some a) = none) ∧
      dict_close { live := [1, 2, 3, 9], recs := [(1, ⟨some 2, some 3, 5⟩)] } (some 1)
        = some { live := [9], recs := [] } ∧
      dict_close { live := [9], recs := [] } (some 1) = none := by
  refine ⟨rfl, ?_, by decide, by decide⟩
  intro hnd ha hr hl hb
  obtain ⟨h', h1, h2⟩ := destroy_dict_live h a r hnd ha hr hl hb
  refine ⟨h', h1, h2, rfl, ?_⟩
  exact destroy_dict_dangling h' a (fun hc => ((h2 a).mp hc).2.1 rfl)

/-- The first loop of `init_dict` on any file content. -/
theorem splitLoop_content (content : List Nat) :
    splitLoop content.length (content ++ [0]) 0 content.length 0
      = (blockOf (lfLines content) ++ tailSeg content ++ [0], content.count 10) := by
  have h := splitLoop_lines (lfLines content) (lfLines_lf_free content) (tailSeg content)
    (tailSeg_lf_free content) [] 0 content.length (by rw [fileOf_lfLines])
  rw [fileOf_lfLines, lfLines_length] at h
  simpa using h

/-- C12: for every NUL-free file content, `init_dict` sets `word_count` to the number
of line-feed bytes, and before the sort the i-th index entry is the i-th
line-feed-terminated segment without its line-feed; empty lines are kept as empty
entries, and a content that ends with a line-feed gets no extra entry after it. -/
theorem init_dict_index_before_sort (k : Consts) (w : World) (path content : List Nat)
    (h0 : 0 ∉ content) (hw : w.holds content) (hb : w.malloc_block = true)
    (hl : w.malloc_list = true) :
    (splitLoop content.length (content ++ [0]) 0 content.length 0).2 = content.count 10 ∧
      (indexLoop (splitLoop content.length (content ++ [0]) 0 content.length 0).1
          (content.count 10) 0).map
        (fun p => cstr ((splitLoop content.length (content ++ [0]) 0 content.length 0).1.drop p))
        = lfLines content ∧
      init_dict k w { word_list := none, word_block := none, word_count := 0 } (some path)
        = (0,
          { word_list := some (qsort
              (indexLoop (splitLoop content.length (content ++ [0]) 0 content.length 0).1
                (content.count 10) 0)
              (content.count 10)
              (fun p q => word_compare
                ((splitLoop content.length (content ++ [0]) 0 content.length 0).1.drop p)
                ((splitLoop content.length (content ++ [0]) 0 content.length 0).1.drop q)))
            word_block := some (splitLoop content.length (content ++ [0]) 0 content.length 0).1
            word_count := content.count 10 }) ∧
      (lfLines content).length = content.count 10 ∧
      lfLines (bytes "a\n\nb\n") = [bytes "a", [], bytes "b"] := by
  have hW0 : ∀ x ∈ lfLines content, 0 ∉ x :=
    fun x hx h => h0 (lfLines_subset content x hx 0 h)
  have hidx := indexLoop_words (lfLines content) hW0
    (blockOf (lfLines content) ++ tailSeg content ++ [0]) 0 (tailSeg content ++ [0])
    (by simp)
  have hinit := init_dict_loaded k w path (lfLines content) (tailSeg content)
    (lfLines_lf_free content) (tailSeg_lf_free content)
    (by rw [fileOf_lfLines]; exact hw) hb hl
  rw [splitLoop_content]
  rw [lfLines_length] at hidx
  refine ⟨rfl, hidx, ?_, lfLines_length content, by decide⟩
  rw [hinit]
  simp only [loaded, lfLines_length]
  rw [qsort_of_length _ _ _ (indexLoop_length _ _ _)]

/-- Instance of `init_dict_index_before_sort`: the content `"b\n\na\n"`. -/
theorem init_dict_index_before_sort_witness :
    (splitLoop (bytes "b\n\na\n").length (bytes "b\n\na\n" ++ [0]) 0
        (bytes "b\n\na\n").length 0).2 = (bytes "b\n\na\n").count 10 :=
  (init_dict_index_before_sort linuxConsts (fileWorld (bytes "b\n\na\n")) (bytes "/dict")
    (bytes "b\n\na\n") (by decide) (by decide) rfl rfl).1

theorem run_checks_record (k : Consts) (d : dict_moddata) (reqs : List CheckReq) :
    (run_checks k d reqs).1 = d := by
  induction reqs with
  | nil => rfl
  | cons r rs ih => simpa [run_checks] using ih

/-- The index of `loaded W tail` is a sorted rearrangement of the entries of the
second loop. -/
theorem loaded_index_sorted (W : List (List Nat)) (tail : List Nat) :
    ∃ wl, (loaded W tail).word_list = some wl ∧ wl.length = W.length ∧
      wl.Perm (indexLoop (blockOf W ++ tail ++ [0]) W.length 0) ∧
      ∀ i j, i < j → j < W.length →
        word_compare ((blockOf W ++ tail ++ [0]).drop (wl.getD i 0))
          ((blockOf W ++ tail ++ [0]).drop (wl.getD j 0)) ≤ 0 := by
  generalize hmem : blockOf W ++ tail ++ [0] = mem
  have hperm := sortBy_perm (fun p q => word_compare (mem.drop p) (mem.drop q))
    (indexLoop mem W.length 0)
  have hsorted := sortBy_pairwise (fun p q => word_compare (mem.drop p) (mem.drop q))
    (fun a b => by
      show strcasecmp _ _ ≤ 0 ∨ strcasecmp _ _ ≤ 0
      have := strcasecmp_antisymm (mem.drop a) (mem.drop b)
      omega)
    (fun a b c h1 h2 => strcasecmp_trans _ _ _ h1 h2)
    (indexLoop mem W.length 0)
  have hlen : (sortBy (fun p q => word_compare (mem.drop p) (mem.drop q))
      (indexLoop mem W.length 0)).length = W.length := by
    rw [hperm.length_eq, indexLoop_length]
  refine ⟨_, by simp only [loaded, hmem], hlen, hperm, ?_⟩
  intro i j hij hj
  have hi : i < W.length := by omega
  rw [List.getD_eq_getElem _ _ (by rw [hlen]; exact hi),
    List.getD_eq_getElem _ _ (by rw [hlen]; exact hj)]
  exact List.pairwise_iff_getElem.mp hsorted i j _ _ hij

/-- C13: after every successful `dict_open` on a readable file, the index
`word_list[0..word_count)` is a permutation of the entries produced by the line split
and is in non-decreasing order under `word_compare`; `dict_check` does not modify the
record, so this holds after any sequence of checks. -/
theorem index_sorted_permutation (k : Consts) (w : World) (path content : List Nat)
    (d : dict_moddata) (reqs : List CheckReq) (hw : w.holds content)
    (hok : dict_open k w (some path) = (0, some d)) :
    (run_checks k d reqs).1 = d ∧
      ∃ wl mem, (run_checks k d reqs).1.word_list = some wl ∧
        (run_checks k d reqs).1.word_block = some mem ∧
        mem = (splitLoop content.length (content ++ [0]) 0 content.length 0).1 ∧
        wl.length = (run_checks k d reqs).1.word_count ∧
        wl.Perm (indexLoop mem (run_checks k d reqs).1.word_count 0) ∧
        ∀ i j, i < j → j < (run_checks k d reqs).1.word_count →
          word_compare (mem.drop (wl.getD i 0)) (mem.drop (wl.getD j 0)) ≤ 0 := by
  have hd := dict_open_ok_eq_loaded_content k w path content d hw hok
  obtain ⟨wl, h1, h2, h3, h4⟩ := loaded_index_sorted (lfLines content) (tailSeg content)
  rw [run_checks_record, hd]
  refine ⟨rfl, wl, _, h1, rfl, ?_, h2, h3, h4⟩
  rw [splitLoop_content]

/-- Instance of `index_sorted_permutation`: the file `"b\nA\nc\n"` and one check. -/
theorem index_sorted_permutation_witness :
    (run_checks linuxConsts (loaded [bytes "b", bytes "A", bytes "c"] [])
        [⟨bytes "a", true, ⟨bytes "X", [bytes "bob"]⟩⟩]).1
      = loaded [bytes "b", bytes "A", bytes "c"] [] :=
  (index_sorted_permutation linuxConsts (fileWorld (bytes "b\nA\nc\n")) (bytes "/dict")
    (bytes "b\nA\nc\n") (loaded [bytes "b", bytes "A", bytes "c"] [])
    [⟨bytes "a", true, ⟨bytes "X", [bytes "bob"]⟩⟩] (by decide) (by decide)).1

/-- C14: `pwqual_dict_initvt` returns `EINVAL` exactly when `maj_ver` is not 1, and then
leaves the vtable unchanged; for `maj_ver` 1 and every `min_ver` it returns 0 and sets
the `open`, `check` and `close` entries to `dict_open`, `dict_check` and `dict_close`,
changing no other field. -/
theorem pwqual_dict_initvt_spec (k : Consts) (maj_ver min_ver : Int)
    (vtable : krb5_pwqual_vtable) :
    ((pwqual_dict_initvt k maj_ver min_ver vtable).1 = k.EINVAL ↔ maj_ver ≠ 1) ∧
      ((pwqual_dict_initvt k maj_ver min_ver vtable).1 = k.EINVAL ∧
          (pwqual_dict_initvt k maj_ver min_ver vtable).2 = vtable ∨
        maj_ver = 1 ∧
          pwqual_dict_initvt k maj_ver min_ver vtable
            = (0, { name := vtable.name, open_fn := PwqualFn.fn_dict_open,
                    check := PwqualFn.fn_dict_check, close := PwqualFn.fn_dict_close })) ∧
      pwqual_dict_initvt k 1 min_ver vtable
        = (0, { name := vtable.name, open_fn := PwqualFn.fn_dict_open,
                check := PwqualFn.fn_dict_check, close := PwqualFn.fn_dict_close }) := by
  have hne : k.EINVAL ≠ 0 := by have := k.EINVAL_pos; omega
  unfold pwqual_dict_initvt
  by_cases h : maj_ver = 1
  · subst h
    simp [hne.symm]
  · simp [h]

theorem strlen_cons (x : Nat) (s : List Nat) :
    strlen (x :: s) = if x = 0 then 0 else strlen s + 1 := by
  rw [strlen_eq, strlen_eq, cstr_cons]
  split_ifs <;> rfl

/-- A string that holds a NUL ends inside its memory. -/
theorem strlen_terminated (s : List Nat) (h : 0 ∈ s) :
    strlen s < s.length ∧ s.getD (strlen s) 1 = 0 := by
  induction s with
  | nil => cases h
  | cons x s ih =>
    rw [strlen_cons]
    by_cases hx : x = 0
    · simp [hx]
    · have hs : 0 ∈ s := by
        rcases List.mem_cons.mp h with h | h
        · exact absurd h.symm hx
        · exact h
      rw [if_neg hx]
      simpa using ih hs

theorem count_nul_after_word (s : List Nat) (n : Nat) (h : n + 1 ≤ s.count 0) :
    n ≤ (s.drop (strlen s + 1)).count 0 := by
  induction s with
  | nil => simp at h
  | cons x s ih =>
    rw [strlen_cons]
    by_cases hx : x = 0
    · subst hx
      simp only [if_true, Nat.zero_add, List.drop_succ_cons, List.drop_zero]
      simp only [List.count_cons_self] at h
      omega
    · rw [if_neg hx, List.drop_succ_cons]
      have h2 : List.count 0 (x :: s) = List.count 0 s := by
        simp [List.count_cons, hx]
      rw [h2] at h
      exact ih h

/-- The second loop stays inside the block when the block holds enough NUL bytes. -/
theorem indexLoop_in_bounds (mem : List Nat) (n p : Nat)
    (h : n ≤ (mem.drop p).count 0) :
    ∀ q ∈ indexLoop mem n p,
      q + strlen (mem.drop q) < mem.length ∧ mem.getD (q + strlen (mem.drop q)) 1 = 0 := by
  induction n generalizing p with
  | zero => simp [indexLoop]
  | succ n ih =>
    have hmem : 0 ∈ mem.drop p := List.count_pos_iff.mp (by omega)
    obtain ⟨h1, h2⟩ := strlen_terminated (mem.drop p) hmem
    have hlen : (mem.drop p).length = mem.length - p := List.length_drop p mem
    intro q hq
    simp only [indexLoop, List.mem_cons] at hq
    rcases hq with rfl | hq
    · refine ⟨by omega, ?_⟩
      rw [List.getD_eq_getElem _ _ h1, List.getElem_drop] at h2
      rw [List.getD_eq_getElem _ _ (by omega)]
      exact h2
    · refine ih (p + strlen (mem.drop p) + 1) ?_ q hq
      have := count_nul_after_word (mem.drop p) n h
      rw [List.drop_drop] at this
      rw [Nat.add_assoc]
      exact this

theorem blockOf_count_nul (W : List (List Nat)) : W.length ≤ (blockOf W).count 0 := by
  induction W with
  | nil => simp
  | cons w W ih =>
    simp only [blockOf, List.length_cons, List.count_append, List.count_cons_self]
    omega

/-- C15: for every file content of size `n`, NUL bytes included, the index walk of
`init_dict` stays inside the `(n+1)`-byte buffer: each of the `word_count` entries
starts at an offset at most `n` and is terminated by a NUL byte at an offset at most
`n`. -/
theorem index_walk_in_buffer (content : List Nat) :
    (splitLoop content.length (content ++ [0]) 0 content.length 0).1.length
        = content.length + 1 ∧
      (indexLoop (splitLoop content.length (content ++ [0]) 0 content.length 0).1
        (splitLoop content.length (content ++ [0]) 0 content.length 0).2 0).length
        = (splitLoop content.length (content ++ [0]) 0 content.length 0).2 ∧
      ∀ q ∈ indexLoop (splitLoop content.length (content ++ [0]) 0 content.length 0).1
          (splitLoop content.length (content ++ [0]) 0 content.length 0).2 0,
        q ≤ content.length ∧
        q + strlen ((splitLoop content.length (content ++ [0]) 0 content.length 0).1.drop q)
          ≤ content.length ∧
        (splitLoop content.length (content ++ [0]) 0 content.length 0).1.getD
          (q + strlen ((splitLoop content.length (content ++ [0]) 0 content.length 0).1.drop q))
          1 = 0 := by
  rw [splitLoop_content]
  dsimp only
  have hlen : (blockOf (lfLines content) ++ tailSeg content ++ [0]).length
      = content.length + 1 := by
    have h1 : (fileOf (lfLines content) ++ tailSeg content).length = content.length := by
      rw [fileOf_lfLines]
    have h2 : ∀ W : List (List Nat), (blockOf W).length = (fileOf W).length := by
      intro W
      induction W with
      | nil => rfl
      | cons w W ih => simp [blockOf, fileOf, ih]
    simp only [List.length_append, List.length_singleton, h2] at h1 ⊢
    omega
  have hcount : content.count 10
      ≤ ((blockOf (lfLines content) ++ tailSeg content ++ [0]).drop 0).count 0 := by
    have := blockOf_count_nul (lfLines content)
    rw [lfLines_length] at this
    simp only [List.drop_zero, List.count_append]
    omega
  refine ⟨hlen, indexLoop_length _ _ _, ?_⟩
  intro q hq
  obtain ⟨h1, h2⟩ := indexLoop_in_bounds _ _ 0 hcount q hq
  rw [hlen] at h1
  exact ⟨by omega, by omega, h2⟩

/-- C16: the line count comes from `memchr` and the index entries from `strlen`, so a
NUL byte in the file can hide a complete line: for the content `"a\0b\nc\n"`, whose
line-feed-terminated lines are `"a\0b"` and `"c"`, the index holds exactly the two
entries `"a"` and `"b"`, and the password `"c"` is not found. -/
theorem nul_byte_hides_line (k : Consts) :
    lfLines (bytes "a\x00b\nc\n") = [bytes "a\x00b", bytes "c"] ∧
      dict_open k (fileWorld (bytes "a\x00b\nc\n")) (some (bytes "/dict"))
        = (0, some { word_list := some [0, 2],
                     word_block := some [97, 0, 98, 0, 99, 0, 0],
                     word_count := 2 }) ∧
      [0, 2].map (fun p => cstr (([97, 0, 98, 0, 99, 0, 0] : List Nat).drop p))
        = [bytes "a", bytes "b"] ∧
      dict_lookup { word_list := some [0, 2],
                    word_block := some [97, 0, 98, 0, 99, 0, 0],
                    word_count := 2 } (bytes "c") = false := by
  refine ⟨by decide, ?_, by decide, by decide⟩
  rw [dict_open_loaded k (fileWorld (bytes "a\x00b\nc\n")) (bytes "/dict")
    [bytes "a\x00b", bytes "c"] [] (by decide) (by decide) (by decide) rfl rfl rfl]
  have h : loaded [bytes "a\x00b", bytes "c"] []
      = { word_list := some [0, 2], word_block := some [97, 0, 98, 0, 99, 0, 0],
          word_count := 2 } := by decide
  rw [h]

/-- C17: `word_compare` is a total preorder fit for sorting and for binary search: it
returns 0 exactly when the two words are byte-wise equal after mapping `A`-`Z` to
`a`-`z`, the sign of `compare(a,b)` is the opposite of the sign of `compare(b,a)`, and
`compare(a,b) <= 0` with `compare(b,c) <= 0` gives `compare(a,c) <= 0`. -/
theorem word_compare_total_preorder (a b c : List Nat) :
    (word_compare a b = 0 ↔ fold (cstr a) = fold (cstr b)) ∧
      (word_compare a b < 0 ↔ word_compare b a > 0) ∧
      (word_compare a b > 0 ↔ word_compare b a < 0) ∧
      (word_compare a b = 0 ↔ word_compare b a = 0) ∧
      (word_compare a b ≤ 0 ∨ word_compare b a ≤ 0) ∧
      (word_compare a b ≤ 0 → word_compare b c ≤ 0 → word_compare a c ≤ 0) := by
  have hanti : word_compare b a = - word_compare a b := strcasecmp_antisymm a b
  refine ⟨strcasecmp_eq_zero_iff a b, ?_, ?_, ?_, ?_, ?_⟩
  · omega
  · omega
  · omega
  · omega
  · exact fun h1 h2 => strcasecmp_trans a b c h1 h2

/-- Instance of `word_compare_total_preorder`: `"Apple"`, `"apple"` and `"Banana"`. -/
theorem word_compare_total_preorder_witness :
    word_compare (bytes "Apple") (bytes "Banana") ≤ 0 :=
  (word_compare_total_preorder (bytes "Apple") (bytes "apple") (bytes "Banana")).2.2.2.2.2
    (by decide) (by decide)

/-! ## Letter case of the dictionary file -/

theorem fold_cons (b : Nat) (c : List Nat) : fold (b :: c) = tolower b :: fold c := rfl

theorem fold_lfLines (c : List Nat) : lfLines (fold c) = (lfLines c).map fold := by
  induction c with
  | nil => rfl
  | cons b c ih =>
    rw [fold_cons]
    unfold lfLines
    by_cases hb : b = 10
    · subst hb
      have h10 : tolower 10 = 10 := by decide
      rw [h10, if_pos rfl, if_pos rfl, ih]
      rfl
    · have hb' : ¬ tolower b = 10 := fun h => hb ((tolower_eq_lf b).mp h)
      rw [if_neg hb, if_neg hb', ih]
      cases lfLines c with
      | nil => rfl
      | cons x W => simp [fold]

theorem fold_tailSeg (c : List Nat) : tailSeg (fold c) = fold (tailSeg c) := by
  induction c with
  | nil => rfl
  | cons b c ih =>
    rw [fold_cons]
    unfold tailSeg
    by_cases hb : b = 10
    · subst hb
      have h10 : tolower 10 = 10 := by decide
      simp [h10, ih]
    · have hb' : ¬ tolower b = 10 := fun h => hb ((tolower_eq_lf b).mp h)
      rw [if_neg hb, if_neg hb']
      by_cases hm : 10 ∈ c
      · have hm' : 10 ∈ fold c := (mem_fold_iff 10 tolower_eq_lf c).mpr hm
        rw [if_pos hm, if_pos hm', ih]
      · have hm' : 10 ∉ fold c := fun h => hm ((mem_fold_iff 10 tolower_eq_lf c).mp h)
        rw [if_neg hm, if_neg hm']
        rfl

theorem fold_append (a b : List Nat) : fold (a ++ b) = fold a ++ fold b := by
  simp [fold]

theorem fold_blockOf (W : List (List Nat)) : fold (blockOf W) = blockOf (W.map fold) := by
  induction W with
  | nil => rfl
  | cons w W ih =>
    simp only [blockOf, List.map_cons]
    rw [fold_append, fold_cons, ih, tolower_zero]

/-- The folded word block depends only on the folded file content. -/
theorem fold_block_content (c : List Nat) :
    fold (blockOf (lfLines c) ++ tailSeg c ++ [0])
      = blockOf (lfLines (fold c)) ++ tailSeg (fold c) ++ [0] := by
  rw [fold_append, fold_append, fold_blockOf, fold_lfLines, fold_tailSeg]
  rfl

theorem strlen_fold (s : List Nat) : strlen (fold s) = strlen s := by
  induction s with
  | nil => rfl
  | cons b s ih =>
    rw [fold_cons, strlen_cons, strlen_cons, ih]
    by_cases hb : b = 0
    · subst hb; simp [tolower_zero]
    · have hb' : ¬ tolower b = 0 := fun h => hb ((tolower_eq_zero b).mp h)
      rw [if_neg hb, if_neg hb']

theorem fold_drop (s : List Nat) (p : Nat) : fold (s.drop p) = (fold s).drop p := by
  simp [fold, List.map_drop]

theorem indexLoop_fold_congr (m1 m2 : List Nat) (h : fold m1 = fold m2) (n p : Nat) :
    indexLoop m1 n p = indexLoop m2 n p := by
  induction n generalizing p with
  | zero => rfl
  | succ n ih =>
    have hs : strlen (m1.drop p) = strlen (m2.drop p) := by
      rw [← strlen_fold (m1.drop p), ← strlen_fold (m2.drop p), fold_drop, fold_drop, h]
    simp only [indexLoop, hs, ih]

/-- Two loaded records whose word blocks agree after folding answer every lookup
alike. -/
theorem loaded_lookup_fold_congr (W1 W2 : List (List Nat)) (tail1 tail2 : List Nat)
    (hm : fold (blockOf W1 ++ tail1 ++ [0]) = fold (blockOf W2 ++ tail2 ++ [0]))
    (hn : W1.length = W2.length) (s : List Nat) :
    dict_lookup (loaded W1 tail1) s = dict_lookup (loaded W2 tail2) s := by
  generalize hm1 : blockOf W1 ++ tail1 ++ [0] = m1 at hm
  generalize hm2 : blockOf W2 ++ tail2 ++ [0] = m2 at hm
  have hidx := indexLoop_fold_congr m1 m2 hm W2.length 0
  have hdrop : ∀ p, fold (m1.drop p) = fold (m2.drop p) := by
    intro p; rw [fold_drop, fold_drop, hm]
  have hcmp : (fun p q => word_compare (m1.drop p) (m1.drop q))
      = (fun p q => word_compare (m2.drop p) (m2.drop q)) := by
    funext p q
    show strcasecmp _ _ = strcasecmp _ _
    rw [strcasecmp_congr_left _ _ _ (hdrop p), strcasecmp_congr_right _ _ _ (hdrop q)]
  have hkey : (fun (key : List Nat) p => word_compare key (m1.drop p))
      = (fun (key : List Nat) p => word_compare key (m2.drop p)) := by
    funext key p
    exact strcasecmp_congr_right _ _ _ (hdrop p)
  simp only [dict_lookup, loaded, hm1, hm2, hn, hidx, hcmp, Option.getD_some, hkey]

/-- Two successful opens of files that agree after folding answer every lookup
alike. -/
theorem lookup_fold_congr (k : Consts) (w1 w2 : World) (path1 path2 c1 c2 : List Nat)
    (d1 d2 : dict_moddata) (s : List Nat) (hc : fold c1 = fold c2)
    (hw1 : w1.holds c1) (hw2 : w2.holds c2)
    (hok1 : dict_open k w1 (some path1) = (0, some d1))
    (hok2 : dict_open k w2 (some path2) = (0, some d2)) :
    dict_lookup d1 s = dict_lookup d2 s := by
  rw [dict_open_ok_eq_loaded_content k w1 path1 c1 d1 hw1 hok1,
    dict_open_ok_eq_loaded_content k w2 path2 c2 d2 hw2 hok2]
  apply loaded_lookup_fold_congr
  · rw [fold_block_content, fold_block_content, hc]
  · have h1 := congrArg List.length (fold_lfLines c1)
    have h2 := congrArg List.length (fold_lfLines c2)
    rw [List.length_map] at h1 h2
    rw [← h1, ← h2, hc]

/-- C4: case insensitivity is ASCII-only and total.  Two passwords that are byte-wise
equal after mapping `A`-`Z` to `a`-`z` get the same lookup result and the same
`dict_check` result, for every record and principal under an active policy; changing
the letter case of any bytes of the dictionary file (any line, terminated or not, of any
file content) changes no lookup result and no `dict_check` result; and with
`"Password\n"` in the file, `"password"`, `"PASSWORD"` and `"PaSsWoRd"` are found. -/
theorem case_insensitive (k : Consts) (d : dict_moddata) (princ : Principal)
    (p q : List Nat) (hpq : fold p = fold q) :
    dict_lookup d p = dict_lookup d q ∧
      dict_check k d p true princ = dict_check k d q true princ ∧
      (∀ (c1 c2 : List Nat) (w1 w2 : World) (path1 path2 : List Nat)
          (d1 d2 : dict_moddata) (s : List Nat),
        fold c1 = fold c2 → w1.holds c1 → w2.holds c2 →
        dict_open k w1 (some path1) = (0, some d1) →
        dict_open k w2 (some path2) = (0, some d2) →
        dict_lookup d1 s = dict_lookup d2 s ∧
          dict_check k d1 s true princ = dict_check k d2 s true princ) ∧
      (dict_open k (fileWorld (bytes "Password\n")) (some (bytes "/dict"))).2.map
          (fun d0 => (dict_lookup d0 (bytes "password"), dict_lookup d0 (bytes "PASSWORD"),
            dict_lookup d0 (bytes "PaSsWoRd")))
        = some (true, true, true) := by
  have hl := dict_lookup_congr d p q hpq
  refine ⟨hl, ?_, ?_, ?_⟩
  · unfold dict_check
    rw [hl, strcasecmp_congr_right princ.realm p q hpq,
      componentLoop_congr k p q hpq princ.components]
  · intro c1 c2 w1 w2 path1 path2 d1 d2 s hc hw1 hw2 hok1 hok2
    have h := lookup_fold_congr k w1 w2 path1 path2 c1 c2 d1 d2 s hc hw1 hw2 hok1 hok2
    refine ⟨h, ?_⟩
    unfold dict_check
    rw [h]
  · have hopen : dict_open k (fileWorld (bytes "Password\n")) (some (bytes "/dict"))
        = (0, some (loaded [bytes "Password"] [])) :=
      dict_open_loaded k _ _ [bytes "Password"] [] (by decide) (by decide) (by decide)
        rfl rfl rfl
    rw [hopen]
    decide

/-- Instance of `case_insensitive`: the passwords `"Qwerty"` and `"qWERTY"` against the
dictionary `"hunter2\nqwerty\npassword\n"`, and the files `"Password\nx"` and
`"PASSWORD\nX"`, whose last line is unterminated. -/
theorem case_insensitive_witness :
    dict_lookup (loaded [bytes "hunter2", bytes "qwerty", bytes "password"] []) (bytes "Qwerty")
        = dict_lookup (loaded [bytes "hunter2", bytes "qwerty", bytes "password"] [])
            (bytes "qWERTY") ∧
      dict_lookup (loaded [bytes "Password"] (bytes "x")) (bytes "password")
        = dict_lookup (loaded [bytes "PASSWORD"] (bytes "X")) (bytes "password") :=
  ⟨(case_insensitive linuxConsts
      (loaded [bytes "hunter2", bytes "qwerty", bytes "password"] [])
      ⟨bytes "X", [bytes "bob"]⟩ (bytes "Qwerty") (bytes "qWERTY") (by decide)).1,
    ((case_insensitive linuxConsts
      (loaded [bytes "hunter2", bytes "qwerty", bytes "password"] [])
      ⟨bytes "X", [bytes "bob"]⟩ (bytes "Qwerty") (bytes "qWERTY") (by decide)).2.2.1
        (bytes "Password\nx") (bytes "PASSWORD\nX") (fileWorld (bytes "Password\nx"))
        (fileWorld (bytes "PASSWORD\nX")) (bytes "/dict") (bytes "/dict")
        (loaded [bytes "Password"] (bytes "x")) (loaded [bytes "PASSWORD"] (bytes "X"))
        (bytes "password") (by decide) (by decide) (by decide) (by decide) (by decide)).1⟩

end PwqualDict
